import Mathlib

/-!
# Device registry chaincode (`iot_register_cc.go`)

A shallow embedding of the chaincode `chaincode/otp/go/iot-register/iot_register_cc.go`
and of the parts of its collaborators that its behaviour depends on:

* Go strings and `[]byte` values are sequences of bytes (`Bytes`);
* `encoding/json` (`json.Marshal` of a `Device`, `json.Unmarshal` into a `*Device`),
  together with the `unicode/utf8` routines it uses;
* the ledger stub (`GetState`, `PutState`, `DelState`, `GetStateByRange` and the
  range iterator), as a key/value world state with a record of the calls made and
  a description of the failures the host reports.

The five contract functions keep their Go names.
-/

namespace IotRegister

/-! ## Bytes and Go strings -/

/-- One byte. -/
abbrev Byte := Fin 256

/-- A Go `string` or `[]byte`: a finite sequence of bytes (not necessarily UTF-8). -/
abbrev Bytes := List Byte

/-- The byte with value `n` (reduced modulo 256). -/
def byte (n : Nat) : Byte := Fin.ofNat n

/-- The bytes of an ASCII string literal of the source. -/
def ascii (s : String) : Bytes := s.data.map (fun c => byte c.toNat)

/-! ## `unicode/utf8` -/

/-- The rune `utf8.RuneError` (U+FFFD). -/
def RuneError : Nat := 0xFFFD

/-- The range accepted for the second byte of a multi-byte sequence whose first
byte is `p0` (the table `acceptRanges` of `unicode/utf8`). -/
def acceptRange (p0 : Nat) : Nat × Nat :=
  if p0 = 0xE0 then (0xA0, 0xBF)
  else if p0 = 0xED then (0x80, 0x9F)
  else if p0 = 0xF0 then (0x90, 0xBF)
  else if p0 = 0xF4 then (0x80, 0x8F)
  else (0x80, 0xBF)

/-- A continuation byte: `locb <= b <= hicb`. -/
def isCont (b : Nat) : Bool := decide (0x80 ≤ b) && decide (b ≤ 0xBF)

/-- The second byte `b1` is acceptable after the first byte `p0`. -/
def accepts (p0 b1 : Nat) : Bool :=
  decide ((acceptRange p0).1 ≤ b1) && decide (b1 ≤ (acceptRange p0).2)

/-- Go `utf8.DecodeRune` (and `DecodeRuneInString`): the first rune of `p` and the
number of bytes it occupies; `(RuneError, 0)` on empty input and `(RuneError, 1)`
when the input does not start with a well-formed sequence. First bytes
`0xC2..0xDF` start a two-byte, `0xE0..0xEF` a three-byte and `0xF0..0xF4` a
four-byte sequence; every other byte above `0x7F` is invalid as a first byte. -/
def decodeRune : Bytes → Nat × Nat
  | [] => (RuneError, 0)
  | p0 :: rest =>
    if p0.val < 0x80 then (p0.val, 1)
    else if p0.val < 0xC2 ∨ 0xF4 < p0.val then (RuneError, 1)
    else if p0.val < 0xE0 then
      match rest with
      | b1 :: _ =>
        if accepts p0.val b1.val then (p0.val % 32 * 64 + b1.val % 64, 2)
        else (RuneError, 1)
      | [] => (RuneError, 1)
    else if p0.val < 0xF0 then
      match rest with
      | b1 :: b2 :: _ =>
        if accepts p0.val b1.val && isCont b2.val then
          (p0.val % 16 * 4096 + b1.val % 64 * 64 + b2.val % 64, 3)
        else (RuneError, 1)
      | _ => (RuneError, 1)
    else
      match rest with
      | b1 :: b2 :: b3 :: _ =>
        if accepts p0.val b1.val && isCont b2.val && isCont b3.val then
          (p0.val % 8 * 262144 + b1.val % 64 * 4096 + b2.val % 64 * 64 + b3.val % 64, 4)
        else (RuneError, 1)
      | _ => (RuneError, 1)

/-- Go `utf8.EncodeRune` / `utf8.AppendRune`: the UTF-8 encoding of the rune `r`;
surrogates and values above `utf8.MaxRune` are encoded as `RuneError`. -/
def encodeRune (r : Nat) : Bytes :=
  if r ≤ 0x7F then [byte r]
  else if r ≤ 0x7FF then [byte (0xC0 + r / 64), byte (0x80 + r % 64)]
  else if 0x10FFFF < r ∨ (0xD800 ≤ r ∧ r ≤ 0xDFFF) then [0xEF, 0xBF, 0xBD]
  else if r ≤ 0xFFFF then
    [byte (0xE0 + r / 4096), byte (0x80 + r / 64 % 64), byte (0x80 + r % 64)]
  else
    [byte (0xF0 + r / 262144), byte (0x80 + r / 4096 % 64), byte (0x80 + r / 64 % 64),
      byte (0x80 + r % 64)]

/-- Go `utf8.Valid`, by the same walk as the JSON encoder makes: no position of
the walk decodes to `(RuneError, 1)`. The first argument bounds the number of
steps; `validUTF8` supplies the length, which is always enough. -/
def validUTF8Aux : Nat → Bytes → Bool
  | _, [] => true
  | 0, _ :: _ => false
  | fuel + 1, b :: rest =>
    if b.val < 0x80 then validUTF8Aux fuel rest
    else if (decodeRune (b :: rest)).1 = RuneError ∧ (decodeRune (b :: rest)).2 = 1 then false
    else validUTF8Aux fuel (rest.drop ((decodeRune (b :: rest)).2 - 1))

/-- The string is well-formed UTF-8 (`utf8.Valid`). -/
def validUTF8 (s : Bytes) : Bool := validUTF8Aux s.length s

/-- A string coerced to valid UTF-8 the way `encoding/json` does it ("replacing
invalid bytes with the Unicode replacement rune"): by the same walk, every byte
that does not start a well-formed sequence is replaced by the three bytes of
U+FFFD and everything else is kept. The first argument bounds the number of
steps. -/
def coerceUTF8Aux : Nat → Bytes → Bytes
  | _, [] => []
  | 0, _ :: _ => []
  | fuel + 1, b :: rest =>
    if b.val < 0x80 then b :: coerceUTF8Aux fuel rest
    else if (decodeRune (b :: rest)).1 = RuneError ∧ (decodeRune (b :: rest)).2 = 1 then
      [0xEF, 0xBF, 0xBD] ++ coerceUTF8Aux fuel rest
    else
      (b :: rest).take (decodeRune (b :: rest)).2 ++
        coerceUTF8Aux fuel (rest.drop ((decodeRune (b :: rest)).2 - 1))

/-- The string coerced to valid UTF-8. -/
def coerceUTF8 (s : Bytes) : Bytes := coerceUTF8Aux s.length s

/-! ## `encoding/json`: encoding -/

/-- The digit `hex[n]`, `hex = "0123456789abcdef"`. -/
def hexDigit (n : Nat) : Byte := if n < 10 then byte (0x30 + n) else byte (0x61 + (n - 10))

/-- The table `htmlSafeSet` of `encoding/json`: the ASCII bytes written without
escaping when HTML escaping is on (the setting of `json.Marshal`): everything
from space to DEL except the double quote, the backslash, `<`, `>` and `&`. -/
def htmlSafe (b : Nat) : Bool :=
  decide (0x20 ≤ b) && decide (b < 0x80) && decide (b ≠ 0x22) && decide (b ≠ 0x5C) &&
    decide (b ≠ 0x3C) && decide (b ≠ 0x3E) && decide (b ≠ 0x26)

/-- The escape `encoding/json` writes for an ASCII byte outside `htmlSafeSet`
(the two-character forms for backspace and form feed are those of Go 1.22 and
later; earlier versions write the six-character form, which reads back the same). -/
def escapeByte (b : Byte) : Bytes :=
  if b.val = 0x5C ∨ b.val = 0x22 then [0x5C, b]
  else if b.val = 0x08 then [0x5C, 0x62]
  else if b.val = 0x0C then [0x5C, 0x66]
  else if b.val = 0x0A then [0x5C, 0x6E]
  else if b.val = 0x0D then [0x5C, 0x72]
  else if b.val = 0x09 then [0x5C, 0x74]
  else [0x5C, 0x75, 0x30, 0x30, hexDigit (b.val / 16), hexDigit (b.val % 16)]

/-- The body of a JSON string literal as `encoding/json` writes it (the loop of
`appendString` with `escapeHTML = true`): safe ASCII is copied, other ASCII is
escaped, a byte that does not start a well-formed UTF-8 sequence becomes the six
characters backslash, u, f, f, f, d, U+2028 and U+2029 are escaped, and every other rune is
copied. The first argument bounds the number of steps. -/
def appendStringAux : Nat → Bytes → Bytes
  | _, [] => []
  | 0, _ :: _ => []
  | fuel + 1, b :: rest =>
    if b.val < 0x80 then
      (if htmlSafe b.val then [b] else escapeByte b) ++ appendStringAux fuel rest
    else if (decodeRune (b :: rest)).1 = RuneError ∧ (decodeRune (b :: rest)).2 = 1 then
      [0x5C, 0x75, 0x66, 0x66, 0x66, 0x64] ++ appendStringAux fuel rest
    else if (decodeRune (b :: rest)).1 = 0x2028 ∨ (decodeRune (b :: rest)).1 = 0x2029 then
      [0x5C, 0x75, 0x32, 0x30, 0x32, hexDigit ((decodeRune (b :: rest)).1 % 16)] ++
        appendStringAux fuel (rest.drop ((decodeRune (b :: rest)).2 - 1))
    else
      (b :: rest).take (decodeRune (b :: rest)).2 ++
        appendStringAux fuel (rest.drop ((decodeRune (b :: rest)).2 - 1))

/-- The JSON string literal `encoding/json` writes for the Go string `s`. -/
def appendString (s : Bytes) : Bytes := [0x22] ++ appendStringAux s.length s ++ [0x22]

/-- Device describes basic details of what makes up a device
(`ID` has the JSON name `deviceid`, `Time` the JSON name `timestamp`). -/
structure Device where
  ID : Bytes
  Time : Bytes
  deriving DecidableEq, Repr

/-- The value `new(Device)` points to: both strings empty. -/
def Device.zero : Device := ⟨[], []⟩

/-- Go `json.Marshal(device)` for a `Device`: an object with the two members in
declaration order and no white space. It cannot fail for this type. -/
def jsonMarshal (d : Device) : Bytes :=
  ascii "\x7b\"deviceid\":" ++ appendString d.ID ++ ascii ",\"timestamp\":" ++
    appendString d.Time ++ ascii "\x7d"

/-! ## `encoding/json`: decoding -/

/-- The scanner's `isSpace`: space, tab, carriage return, line feed. -/
def isSpace (c : Byte) : Bool :=
  decide (c.val = 0x20) || decide (c.val = 0x09) || decide (c.val = 0x0D) || decide (c.val = 0x0A)

/-- Skip JSON white space. -/
def skipWS : Bytes → Bytes
  | [] => []
  | c :: rest => if isSpace c then skipWS rest else c :: rest

/-- A decimal digit. -/
def isDigit (c : Byte) : Bool := decide (0x30 ≤ c.val) && decide (c.val ≤ 0x39)

/-- Skip decimal digits. -/
def skipDigits : Bytes → Bytes
  | [] => []
  | c :: rest => if isDigit c then skipDigits rest else c :: rest

/-- The value of a hexadecimal digit, if `c` is one (either case). -/
def hexVal (c : Byte) : Option Nat :=
  if 0x30 ≤ c.val ∧ c.val ≤ 0x39 then some (c.val - 0x30)
  else if 0x61 ≤ c.val ∧ c.val ≤ 0x66 then some (c.val - 0x61 + 10)
  else if 0x41 ≤ c.val ∧ c.val ≤ 0x46 then some (c.val - 0x41 + 10)
  else none

/-- Four hexadecimal digits at the front of the input, as a number. -/
def hex4 : Bytes → Option Nat
  | a :: b :: c :: d :: _ =>
    match hexVal a, hexVal b, hexVal c, hexVal d with
    | some x, some y, some z, some w => some (x * 4096 + y * 256 + z * 16 + w)
    | _, _, _, _ => none
  | _ => none

/-- The decoder's `getu4`: the code unit of a backslash-u escape at the front of
the input. -/
def getu4 : Bytes → Option Nat
  | bs :: u :: rest => if bs.val = 0x5C ∧ u.val = 0x75 then hex4 rest else none
  | _ => none

/-- The byte a two-character escape stands for, for the escapes the scanner
admits: the double quote, the backslash and the slash stand for themselves,
then b, f, n, r, t. -/
def simpleEscape (e : Byte) : Option Byte :=
  if e.val = 0x22 ∨ e.val = 0x5C ∨ e.val = 0x2F then some e
  else if e.val = 0x62 then some 0x08
  else if e.val = 0x66 then some 0x0C
  else if e.val = 0x6E then some 0x0A
  else if e.val = 0x72 then some 0x0D
  else if e.val = 0x74 then some 0x09
  else none

/-- Put decoded bytes in front of the result of the rest of a string scan. -/
def prepend (pre : Bytes) (r : Option (Bytes × Bytes)) : Option (Bytes × Bytes) :=
  r.map (fun p => (pre ++ p.1, p.2))

/-- Reading a JSON string literal, the input standing just after the opening
quote: the decoded Go string and the input after the closing quote, or `none`
when the literal is malformed. This is the scanner's string states followed by
`unquoteBytes`, in one pass: a backslash must be followed by one of the
two-character escapes or by `u` and four hexadecimal digits, and a control
character below space is refused. A backslash-u escape gives its code unit; a
high surrogate followed by an escaped low surrogate gives the combined rune, and
any other surrogate gives U+FFFD. Bytes above `0x7F` are decoded as UTF-8 and
written back re-encoded, so a byte that does not start a well-formed sequence
is replaced by U+FFFD. The first argument bounds the number of steps. -/
def scanStringAux : Nat → Bytes → Option (Bytes × Bytes)
  | 0, _ => none
  | _ + 1, [] => none
  | fuel + 1, c :: rest =>
    if c.val = 0x22 then some ([], rest)
    else if c.val = 0x5C then
      match rest with
      | [] => none
      | e :: rest1 =>
        if e.val = 0x75 then
          match hex4 rest1 with
          | none => none
          | some rr =>
            if 0xD800 ≤ rr ∧ rr < 0xE000 then
              match getu4 (rest1.drop 4) with
              | some rr1 =>
                if rr < 0xDC00 ∧ 0xDC00 ≤ rr1 ∧ rr1 < 0xE000 then
                  prepend (encodeRune ((rr - 0xD800) * 1024 + (rr1 - 0xDC00) + 0x10000))
                    (scanStringAux fuel (rest1.drop 10))
                else prepend (encodeRune RuneError) (scanStringAux fuel (rest1.drop 4))
              | none => prepend (encodeRune RuneError) (scanStringAux fuel (rest1.drop 4))
            else prepend (encodeRune rr) (scanStringAux fuel (rest1.drop 4))
        else
          match simpleEscape e with
          | some b => prepend [b] (scanStringAux fuel rest1)
          | none => none
    else if c.val < 0x20 then none
    else if c.val < 0x80 then prepend [c] (scanStringAux fuel rest)
    else
      prepend (encodeRune (decodeRune (c :: rest)).1)
        (scanStringAux fuel (rest.drop ((decodeRune (c :: rest)).2 - 1)))

/-- Read a string literal whose opening quote has been consumed. -/
def scanString (inp : Bytes) : Option (Bytes × Bytes) := scanStringAux (inp.length + 1) inp

/-- The exponent of a number, if any, and the input after the number. -/
def scanExp : Bytes → Option Bytes
  | [] => some []
  | e :: rest =>
    if e.val = 0x65 ∨ e.val = 0x45 then
      match rest with
      | [] => none
      | s :: rest1 =>
        if s.val = 0x2B ∨ s.val = 0x2D then
          match rest1 with
          | d :: rest2 => if isDigit d then some (skipDigits rest2) else none
          | [] => none
        else if isDigit s then some (skipDigits rest1) else none
    else some (e :: rest)

/-- The fraction of a number, if any, then its exponent. -/
def scanFrac : Bytes → Option Bytes
  | [] => some []
  | c :: rest =>
    if c.val = 0x2E then
      match rest with
      | d :: rest1 => if isDigit d then scanExp (skipDigits rest1) else none
      | [] => none
    else scanExp (c :: rest)

/-- The integer part of a number after an optional minus sign. -/
def scanInt : Bytes → Option Bytes
  | [] => none
  | d :: rest =>
    if d.val = 0x30 then scanFrac rest
    else if 0x31 ≤ d.val ∧ d.val ≤ 0x39 then scanFrac (skipDigits rest)
    else none

/-- Reading a JSON number (the scanner's number states): the input after it. -/
def scanNumber : Bytes → Option Bytes
  | [] => none
  | c :: rest => if c.val = 0x2D then scanInt rest else scanInt (c :: rest)

/-- Remove the given bytes from the front of the input, if they are there. -/
def expect : Bytes → Bytes → Option Bytes
  | [], inp => some inp
  | _ :: _, [] => none
  | w :: ws, c :: rest => if c = w then expect ws rest else none

/-- A JSON value as the decoder sees it. -/
inductive JValue where
  | null
  | bool (b : Bool)
  | number
  | string (s : Bytes)
  | array (elems : List JValue)
  | object (members : List (Bytes × JValue))

/-- The scanner's `maxNestingDepth`. -/
def maxNestingDepth : Nat := 10000

mutual
/-- Read one JSON value at the front of the input (white space already skipped):
the value and the rest of the input, or `none` on a syntax error. The first
argument bounds the depth of calls (the input length is always enough), the
second is the number of arrays and objects currently open. -/
def parseValue : Nat → Nat → Bytes → Option (JValue × Bytes)
  | 0, _, _ => none
  | _ + 1, _, [] => none
  | fuel + 1, depth, c :: rest =>
    if c.val = 0x7B then
      if maxNestingDepth ≤ depth then none
      else
        match skipWS rest with
        | [] => none
        | c1 :: rest1 =>
          if c1.val = 0x7D then some (JValue.object [], rest1)
          else (parseMembers fuel (depth + 1) (c1 :: rest1)).map
            (fun p => (JValue.object p.1, p.2))
    else if c.val = 0x5B then
      if maxNestingDepth ≤ depth then none
      else
        match skipWS rest with
        | [] => none
        | c1 :: rest1 =>
          if c1.val = 0x5D then some (JValue.array [], rest1)
          else (parseElems fuel (depth + 1) (c1 :: rest1)).map
            (fun p => (JValue.array p.1, p.2))
    else if c.val = 0x22 then (scanString rest).map (fun p => (JValue.string p.1, p.2))
    else if c.val = 0x74 then (expect (ascii "rue") rest).map (fun r => (JValue.bool true, r))
    else if c.val = 0x66 then (expect (ascii "alse") rest).map (fun r => (JValue.bool false, r))
    else if c.val = 0x6E then (expect (ascii "ull") rest).map (fun r => (JValue.null, r))
    else if c.val = 0x2D ∨ isDigit c then
      (scanNumber (c :: rest)).map (fun r => (JValue.number, r))
    else none
/-- Read the members of an object, the input standing at the first key: each
member is a string literal, a colon and a value; members are separated by
commas and the object ends at the closing brace. -/
def parseMembers : Nat → Nat → Bytes → Option (List (Bytes × JValue) × Bytes)
  | 0, _, _ => none
  | _ + 1, _, [] => none
  | fuel + 1, depth, q :: rest =>
    if q.val = 0x22 then
      match scanString rest with
      | none => none
      | some (key, r1) =>
        match skipWS r1 with
        | [] => none
        | colon :: r2 =>
          if colon.val = 0x3A then
            match parseValue fuel depth (skipWS r2) with
            | none => none
            | some (v, r3) =>
              match skipWS r3 with
              | [] => none
              | sep :: r4 =>
                if sep.val = 0x2C then
                  (parseMembers fuel depth (skipWS r4)).map (fun p => ((key, v) :: p.1, p.2))
                else if sep.val = 0x7D then some ([(key, v)], r4)
                else none
          else none
    else none
/-- Read the elements of an array, the input standing at the first element. -/
def parseElems : Nat → Nat → Bytes → Option (List JValue × Bytes)
  | 0, _, _ => none
  | fuel + 1, depth, inp =>
    match parseValue fuel depth inp with
    | none => none
    | some (v, r1) =>
      match skipWS r1 with
      | [] => none
      | sep :: r2 =>
        if sep.val = 0x2C then
          (parseElems fuel depth (skipWS r2)).map (fun p => (v :: p.1, p.2))
        else if sep.val = 0x5D then some ([v], r2)
        else none
end

/-- The scanner's `checkValid` together with reading the value: the whole input
is one JSON value surrounded by optional white space. -/
def parseJSON (data : Bytes) : Option JValue :=
  match parseValue (data.length + 1) 0 (skipWS data) with
  | none => none
  | some (v, rest) => if skipWS rest = [] then some v else none

/-- The two errors `json.Unmarshal` can report for this target type. -/
inductive JsonError where
  | SyntaxError
  | UnmarshalTypeError
  deriving DecidableEq, Repr

/-- The decoder's `foldName` as far as matching against an ASCII field name
observes it: ASCII letters are folded to upper case, and the only runes outside
ASCII whose case fold is an ASCII letter are U+017F (long s, folds to S) and
U+212A (Kelvin sign, folds to K); every other rune is kept (its fold is never
ASCII). The first argument bounds the number of steps. -/
def foldNameAux : Nat → Bytes → List Nat
  | _, [] => []
  | 0, _ :: _ => []
  | fuel + 1, c :: rest =>
    if c.val < 0x80 then
      (if 0x61 ≤ c.val ∧ c.val ≤ 0x7A then c.val - 0x20 else c.val) :: foldNameAux fuel rest
    else
      (if (decodeRune (c :: rest)).1 = 0x17F then 0x53
        else if (decodeRune (c :: rest)).1 = 0x212A then 0x4B
        else (decodeRune (c :: rest)).1) ::
        foldNameAux fuel (rest.drop ((decodeRune (c :: rest)).2 - 1))

/-- The folded form of an object key. -/
def foldName (key : Bytes) : List Nat := foldNameAux key.length key

/-- The fields of `Device`. -/
inductive Field where
  | ID
  | Time
  deriving DecidableEq, Repr

/-- The field of `Device` an object key selects: the field whose JSON name equals
the key, exactly or else under case folding; `none` for an unknown key. -/
def fieldOf (key : Bytes) : Option Field :=
  if foldName key = foldName (ascii "deviceid") then some Field.ID
  else if foldName key = foldName (ascii "timestamp") then some Field.Time
  else none

/-- Store a string into a field. -/
def Device.set (d : Device) : Field → Bytes → Device
  | Field.ID, s => { d with ID := s }
  | Field.Time, s => { d with Time := s }

/-- Decoding one object member into the `Device`: a string value is stored in
the field the key selects, `null` leaves the field alone, any other value is a
type error that is remembered (the first one is kept) while decoding goes on,
and a member with an unknown key is skipped. -/
def storeMember (acc : Device × Option JsonError) (m : Bytes × JValue) :
    Device × Option JsonError :=
  match fieldOf m.1 with
  | none => acc
  | some f =>
    match m.2 with
    | JValue.string s => (acc.1.set f s, acc.2)
    | JValue.null => acc
    | _ => (acc.1, acc.2.orElse (fun _ => some JsonError.UnmarshalTypeError))

/-- Go `json.Unmarshal(data, device)` for `device : *Device`: the contents of
the `Device` afterwards and the error returned. The input is checked first, and
on a syntax error the `Device` is not touched. An object is decoded member by
member in order; `null` does nothing; any other value is a type error. -/
def jsonUnmarshal (data : Bytes) (d : Device) : Device × Option JsonError :=
  match parseJSON data with
  | none => (d, some JsonError.SyntaxError)
  | some (JValue.object members) => members.foldl storeMember (d, none)
  | some JValue.null => (d, none)
  | some _ => (d, some JsonError.UnmarshalTypeError)

/-! ## The ledger stub

The host is not part of the chaincode. It is represented by what the contract can
observe of it through the stub interface: a key/value world state (`GetState`
returns the bytes last written under a key and not erased since, or `nil`; a
range scan with empty bounds yields every entry once, in key order), and for
every call that returns an error, the error the host decides to return. -/

/-- A Go `error`, represented by the text its `Error()` method returns. The
errors the chaincode makes itself come from `fmt.Errorf` without a wrapping
verb, so their text is all that can be observed of them. -/
abbrev Error := Bytes

/-- The world state: the key/value entries, in the order a range scan yields them. -/
abbrev WorldState := List (Bytes × Bytes)

/-- The bytewise lexical order of keys, the order in which the ledger keeps them. -/
def keyLess : Bytes → Bytes → Bool
  | [], [] => false
  | [], _ :: _ => true
  | _ :: _, [] => false
  | a :: as, b :: bs => decide (a.val < b.val) || (decide (a.val = b.val) && keyLess as bs)

/-- The value stored under a key, `none` when there is none. -/
def WorldState.get (key : Bytes) : WorldState → Option Bytes
  | [] => none
  | (k, v) :: rest => if k = key then some v else WorldState.get key rest

/-- Write a value under a key: an existing entry is replaced where it stands, a
new one is inserted before the first greater key. -/
def WorldState.put (key value : Bytes) : WorldState → WorldState
  | [] => [(key, value)]
  | (k, v) :: rest =>
    if k = key then (key, value) :: rest
    else if keyLess key k then (key, value) :: (k, v) :: rest
    else (k, v) :: WorldState.put key value rest

/-- Erase a key. -/
def WorldState.del (key : Bytes) (w : WorldState) : WorldState :=
  w.filter (fun e => decide (e.1 ≠ key))

/-- The entries a range scan from `startKey` (inclusive) to `endKey` (exclusive)
yields; an empty bound is no bound. -/
def WorldState.range (startKey endKey : Bytes) (w : WorldState) : WorldState :=
  w.filter (fun e => (decide (startKey = []) || !keyLess e.1 startKey) &&
    (decide (endKey = []) || keyLess e.1 endKey))

/-- A call made on the stub or on a range iterator. -/
inductive Call where
  | GetState (key : Bytes)
  | PutState (key value : Bytes)
  | DelState (key : Bytes)
  | GetStateByRange (startKey endKey : Bytes)
  | HasNext
  | Next
  | Close
  deriving DecidableEq, Repr

/-- The failures the host reports: for each call that can fail, the error it
returns, if any. `next i` is the error of the call of `Next` that would yield
the entry at position `i` of the scan. -/
structure Faults where
  getState : Bytes → Option Error
  putState : Bytes → Bytes → Option Error
  delState : Bytes → Option Error
  getStateByRange : Option Error
  next : Nat → Option Error

/-- The host that never fails. -/
def Faults.none : Faults := ⟨fun _ => Option.none, fun _ _ => Option.none, fun _ => Option.none,
  Option.none, fun _ => Option.none⟩

/-- What `ctx.GetStub()` gives access to: the world state, the failures the host
reports, and the calls made so far, oldest first. -/
structure Stub where
  state : WorldState
  faults : Faults
  calls : List Call

/-- Record a call. -/
def Stub.log (s : Stub) (c : Call) : Stub := { s with calls := s.calls ++ [c] }

/-- Stub `GetState(key)`: the bytes under the key, `none` (Go `nil`) when the key
has no value, or the host's error. -/
def Stub.GetState (s : Stub) (key : Bytes) : Stub × Except Error (Option Bytes) :=
  match s.faults.getState key with
  | some err => (s.log (Call.GetState key), Except.error err)
  | none => (s.log (Call.GetState key), Except.ok (s.state.get key))

/-- Stub `PutState(key, value)`: writes the value unless the host fails. -/
def Stub.PutState (s : Stub) (key value : Bytes) : Stub × Option Error :=
  match s.faults.putState key value with
  | some err => (s.log (Call.PutState key value), some err)
  | none => ({ s with state := s.state.put key value }.log (Call.PutState key value), none)

/-- Stub `DelState(key)`: erases the key unless the host fails. -/
def Stub.DelState (s : Stub) (key : Bytes) : Stub × Option Error :=
  match s.faults.delState key with
  | some err => (s.log (Call.DelState key), some err)
  | none => ({ s with state := s.state.del key }.log (Call.DelState key), none)

/-- Stub `GetStateByRange(startKey, endKey)`: the entries the iterator will
yield, or the host's error. -/
def Stub.GetStateByRange (s : Stub) (startKey endKey : Bytes) : Stub × Except Error WorldState :=
  match s.faults.getStateByRange with
  | some err => (s.log (Call.GetStateByRange startKey endKey), Except.error err)
  | none => (s.log (Call.GetStateByRange startKey endKey),
      Except.ok (s.state.range startKey endKey))

/-! ## The chaincode -/

/-- QueryResult structure used for handling result of query
(`Record` is a pointer in the source, `none` is `nil`). -/
structure QueryResult where
  Key : Bytes
  Record : Option Device
  deriving DecidableEq, Repr

/-- RegisterDevice adds a new device to the world state with given details:
the device is marshalled (the error of `json.Marshal` is discarded) and written
under its id; the result is the error of `PutState`. -/
def RegisterDevice (s : Stub) (deviceID tiemstamp : Bytes) : Stub × Option Error :=
  let device : Device := { ID := deviceID, Time := tiemstamp }
  let deviceAsBytes := jsonMarshal device
  s.PutState deviceID deviceAsBytes

/-- QueryDevice returns the device stored in the world state with given id.
A failed read and a missing value each give `nil` and an error made by
`fmt.Errorf`; otherwise the bytes are unmarshalled into a fresh `Device`, the
error of `json.Unmarshal` is discarded, and the device is returned with a `nil`
error. -/
def QueryDevice (s : Stub) (deviceID : Bytes) : Stub × Option Device × Option Error :=
  match s.GetState deviceID with
  | (s1, Except.error err) =>
    (s1, none, some (ascii "failed to read from world state. " ++ err))
  | (s1, Except.ok none) => (s1, none, some (deviceID ++ ascii " does not exist"))
  | (s1, Except.ok (some deviceAsBytes)) =>
    (s1, some (jsonUnmarshal deviceAsBytes Device.zero).1, none)

/-- DeviceExists returns true when asset with given ID exists in world state. -/
def DeviceExists (s : Stub) (deviceID : Bytes) : Stub × Bool × Option Error :=
  match s.GetState deviceID with
  | (s1, Except.error err) =>
    (s1, false, some (ascii "failed to read from world state: " ++ err))
  | (s1, Except.ok deviceJSON) => (s1, deviceJSON.isSome, none)

/-- DeleteAsset deletes an given asset from the world state: the error of
`DeviceExists` is returned as it is, a missing asset is an error, and otherwise
the result is the error of `DelState`. -/
def DeleteAsset (s : Stub) (deviceID : Bytes) : Stub × Option Error :=
  match DeviceExists s deviceID with
  | (s1, _, some err) => (s1, some err)
  | (s1, false, none) => (s1, some (ascii "the asset " ++ deviceID ++ ascii " does not exist"))
  | (s1, true, none) => s1.DelState deviceID

/-- The loop of `QueryAllDevices`. The first list is what the iterator has yet
to yield and `pos` the number of entries already taken. On the empty list
`HasNext()` is false and the results are returned; otherwise `HasNext()` is
true and `Next()` is called: its error ends the function with `nil` results,
and its entry is unmarshalled into a fresh `Device` (the error of
`json.Unmarshal` discarded) and appended to the results under its key. -/
def QueryAllDevices.loop :
    WorldState → Nat → Stub → List QueryResult → Stub × Option (List QueryResult) × Option Error
  | [], _, s, results => (s.log Call.HasNext, some results, none)
  | (key, value) :: rest, pos, s, results =>
    match s.faults.next pos with
    | some err => ((s.log Call.HasNext).log Call.Next, none, some err)
    | none =>
      let device := (jsonUnmarshal value Device.zero).1
      let queryResult : QueryResult := { Key := key, Record := some device }
      QueryAllDevices.loop rest (pos + 1) ((s.log Call.HasNext).log Call.Next)
        (results ++ [queryResult])

/-- QueryAllDevices returns all devices found in world state. When
`GetStateByRange("", "")` fails its error is returned with `nil` results and
nothing is deferred; otherwise `Close` is deferred, so it runs when the loop
is left, on either of its exits. -/
def QueryAllDevices (s : Stub) : Stub × Option (List QueryResult) × Option Error :=
  match s.GetStateByRange [] [] with
  | (s1, Except.error err) => (s1, none, some err)
  | (s1, Except.ok entries) =>
    match QueryAllDevices.loop entries 0 s1 [] with
    | (s2, results, err) => (s2.log Call.Close, results, err)

/-! ## Histories of calls

A sequence of invocations, each run on the stub the previous one left, so that
an invocation reads what the earlier ones wrote. -/

/-- One invocation of the contract. -/
inductive Op where
  | register (deviceID tiemstamp : Bytes)
  | delete (deviceID : Bytes)
  | query (deviceID : Bytes)
  | exist (deviceID : Bytes)
  | queryAll
  deriving DecidableEq, Repr

/-- Run one invocation: the stub afterwards and the error the invocation returned. -/
def step (s : Stub) : Op → Stub × Option Error
  | Op.register deviceID tiemstamp => RegisterDevice s deviceID tiemstamp
  | Op.delete deviceID => DeleteAsset s deviceID
  | Op.query deviceID => ((QueryDevice s deviceID).1, (QueryDevice s deviceID).2.2)
  | Op.exist deviceID => ((DeviceExists s deviceID).1, (DeviceExists s deviceID).2.2)
  | Op.queryAll => ((QueryAllDevices s).1, (QueryAllDevices s).2.2)

/-- Run a sequence of invocations in order: the final stub and, for each
invocation, the error it returned. -/
def runAll : Stub → List Op → Stub × List (Option Error)
  | s, [] => (s, [])
  | s, op :: ops =>
    ((runAll (step s op).1 ops).1, (step s op).2 :: (runAll (step s op).1 ops).2)

/-- The stub of a fresh ledger on a host that never fails. -/
def Stub.empty : Stub := ⟨[], Faults.none, []⟩

/-- The calls made between two stubs of one run. -/
def callsSince (before after : Stub) : List Call := after.calls.drop before.calls.length

/-! ## UTF-8 -/

theorem byte_eq_iff (n : Nat) (b : Byte) : byte n = b ↔ n % 256 = b.val := by
  constructor
  · intro h
    rw [← h]
    rfl
  · intro h
    exact Fin.ext h

theorem byte_val (b : Byte) : byte b.val = b := (byte_eq_iff _ _).2 (Nat.mod_eq_of_lt b.isLt)

theorem accepts_bounds (p0 b1 : Nat) (h : accepts p0 b1 = true) :
    0x80 ≤ b1 ∧ b1 ≤ 0xBF ∧ (p0 = 0xE0 → 0xA0 ≤ b1) ∧ (p0 = 0xED → b1 ≤ 0x9F) ∧
      (p0 = 0xF0 → 0x90 ≤ b1) ∧ (p0 = 0xF4 → b1 ≤ 0x8F) := by
  simp only [accepts, acceptRange, Bool.and_eq_true, decide_eq_true_eq] at h
  split_ifs at h <;> omega

theorem isCont_bounds (b : Nat) (h : isCont b = true) : 0x80 ≤ b ∧ b ≤ 0xBF := by
  simpa [isCont] using h

/-- What a well-formed multi-byte sequence at the front of the input gives:
a rune above ASCII, between two and four bytes long, whose encoding is the
bytes read, and that is read the same whatever follows those bytes. -/
theorem decodeRune_wellformed (p0 : Byte) (rest : Bytes) (h0 : 0x80 ≤ p0.val)
    (hv : ¬ ((decodeRune (p0 :: rest)).1 = RuneError ∧ (decodeRune (p0 :: rest)).2 = 1)) :
    0x80 ≤ (decodeRune (p0 :: rest)).1 ∧
    2 ≤ (decodeRune (p0 :: rest)).2 ∧
    (decodeRune (p0 :: rest)).2 ≤ (p0 :: rest).length ∧
    encodeRune (decodeRune (p0 :: rest)).1 = (p0 :: rest).take (decodeRune (p0 :: rest)).2 ∧
    ∀ tail, decodeRune ((p0 :: rest).take (decodeRune (p0 :: rest)).2 ++ tail) =
      decodeRune (p0 :: rest) := by
  have hp0 := p0.isLt
  by_cases h1 : p0.val < 0xC2 ∨ 0xF4 < p0.val
  · exfalso
    apply hv
    simp [decodeRune, h1, show ¬ p0.val < 0x80 by omega]
  by_cases h2 : p0.val < 0xE0
  · rcases rest with _ | ⟨b1, rest⟩
    · exfalso
      apply hv
      simp [decodeRune, h1, h2, show ¬ p0.val < 0x80 by omega]
    · have hb1 := b1.isLt
      by_cases ha : accepts p0.val b1.val = true
      · have hd : decodeRune (p0 :: b1 :: rest) = (p0.val % 32 * 64 + b1.val % 64, 2) := by
          simp [decodeRune, h1, h2, ha, show ¬ p0.val < 0x80 by omega]
        have hd' : ∀ tail, decodeRune (p0 :: b1 :: tail) = (p0.val % 32 * 64 + b1.val % 64, 2) := by
          intro tail
          simp [decodeRune, h1, h2, ha, show ¬ p0.val < 0x80 by omega]
        rw [hd]
        have hr := accepts_bounds p0.val b1.val ha
        clear ha hv
        refine ⟨by dsimp only; omega, le_refl _, by simp, ?_, fun tail => by simpa using hd' tail⟩
        simp only [encodeRune, List.take_succ_cons, List.take_zero]
        rw [if_neg (by omega), if_pos (by omega)]
        simp only [List.cons.injEq, byte_eq_iff, and_true]
        omega
      · exfalso
        apply hv
        simp [decodeRune, h1, h2, ha, show ¬ p0.val < 0x80 by omega]
  by_cases h3 : p0.val < 0xF0
  · rcases rest with _ | ⟨b1, _ | ⟨b2, rest⟩⟩
    · exfalso
      apply hv
      simp [decodeRune, h1, h2, h3, show ¬ p0.val < 0x80 by omega]
    · exfalso
      apply hv
      simp [decodeRune, h1, h2, h3, show ¬ p0.val < 0x80 by omega]
    · have hb1 := b1.isLt
      have hb2 := b2.isLt
      by_cases ha : (accepts p0.val b1.val && isCont b2.val) = true
      · have hd' : ∀ tail, decodeRune (p0 :: b1 :: b2 :: tail) =
            (p0.val % 16 * 4096 + b1.val % 64 * 64 + b2.val % 64, 3) := by
          intro tail
          simp only [decodeRune, h1, h2, h3, ha, show ¬ p0.val < 0x80 by omega, if_false, if_true]
        rw [hd' rest]
        simp only [Bool.and_eq_true] at ha
        have hr := accepts_bounds p0.val b1.val ha.1
        have hc2 := isCont_bounds b2.val ha.2
        clear ha hv
        refine ⟨by dsimp only; omega, by dsimp only; omega, by simp, ?_,
          fun tail => by simpa using hd' tail⟩
        simp only [encodeRune, List.take_succ_cons, List.take_zero]
        rw [if_neg (by omega), if_neg (by omega), if_neg (by omega), if_pos (by omega)]
        simp only [List.cons.injEq, byte_eq_iff, and_true]
        omega
      · exfalso
        apply hv
        simp [decodeRune, h1, h2, h3, ha, show ¬ p0.val < 0x80 by omega]
  · rcases rest with _ | ⟨b1, _ | ⟨b2, _ | ⟨b3, rest⟩⟩⟩
    · exfalso
      apply hv
      simp [decodeRune, h1, h2, h3, show ¬ p0.val < 0x80 by omega]
    · exfalso
      apply hv
      simp [decodeRune, h1, h2, h3, show ¬ p0.val < 0x80 by omega]
    · exfalso
      apply hv
      simp [decodeRune, h1, h2, h3, show ¬ p0.val < 0x80 by omega]
    · have hb1 := b1.isLt
      have hb2 := b2.isLt
      have hb3 := b3.isLt
      by_cases ha : (accepts p0.val b1.val && isCont b2.val && isCont b3.val) = true
      · have hd' : ∀ tail, decodeRune (p0 :: b1 :: b2 :: b3 :: tail) =
            (p0.val % 8 * 262144 + b1.val % 64 * 4096 + b2.val % 64 * 64 + b3.val % 64, 4) := by
          intro tail
          simp only [decodeRune, h1, h2, h3, ha, show ¬ p0.val < 0x80 by omega, if_false, if_true]
        rw [hd' rest]
        simp only [Bool.and_eq_true] at ha
        have hr := accepts_bounds p0.val b1.val ha.1.1
        have hc2 := isCont_bounds b2.val ha.1.2
        have hc3 := isCont_bounds b3.val ha.2
        clear ha hv
        refine ⟨by dsimp only; omega, by dsimp only; omega, by simp, ?_,
          fun tail => by simpa using hd' tail⟩
        simp only [encodeRune, List.take_succ_cons, List.take_zero]
        rw [if_neg (by omega), if_neg (by omega), if_neg (by omega), if_neg (by omega)]
        simp only [List.cons.injEq, byte_eq_iff, and_true]
        omega
      · exfalso
        apply hv
        simp [decodeRune, h1, h2, h3, ha, show ¬ p0.val < 0x80 by omega]

/-! ## A string literal written by the encoder is read back -/

theorem hexVal_hexDigit (k : Nat) (h : k < 16) : hexVal (hexDigit k) = some k := by
  interval_cases k <;> rfl

theorem prepend_some (pre a t : Bytes) : prepend pre (some (a, t)) = some (pre ++ a, t) := rfl

theorem scan_quote (f : Nat) (tail : Bytes) : scanStringAux (f + 1) (0x22 :: tail) = some ([], tail) := by
  simp [scanStringAux, Fin.coe_ofNat_eq_mod]

theorem scan_escape_u (f : Nat) (h1 h2 h3 h4 : Byte) (rr : Nat) (X : Bytes)
    (hh : hex4 (h1 :: h2 :: h3 :: h4 :: X) = some rr) (hs : ¬ (0xD800 ≤ rr ∧ rr < 0xE000)) :
    scanStringAux (f + 1) (0x5C :: 0x75 :: h1 :: h2 :: h3 :: h4 :: X) =
      prepend (encodeRune rr) (scanStringAux f X) := by
  simp [scanStringAux, Fin.coe_ofNat_eq_mod, hh, hs]

theorem hex4_00 (k1 k2 : Nat) (hk1 : k1 < 16) (hk2 : k2 < 16) (X : Bytes) :
    hex4 (0x30 :: 0x30 :: hexDigit k1 :: hexDigit k2 :: X) = some (k1 * 16 + k2) := by
  simp [hex4, hexVal_hexDigit, hk1, hk2, show hexVal 0x30 = some 0 from rfl]

theorem scan_ascii_step (f : Nat) (b : Byte) (X : Bytes) (hb : b.val < 0x80) :
    scanStringAux (f + 1) ((if htmlSafe b.val then [b] else escapeByte b) ++ X) =
      prepend [b] (scanStringAux f X) := by
  by_cases hs : htmlSafe b.val = true
  · rw [if_pos hs]
    simp only [htmlSafe, Bool.and_eq_true, decide_eq_true_eq] at hs
    simp only [List.singleton_append]
    simp only [scanStringAux]
    rw [if_neg (by omega), if_neg (by omega), if_neg (by omega), if_pos hb]
  · rw [if_neg hs]
    simp only [htmlSafe, Bool.and_eq_true, decide_eq_true_eq] at hs
    unfold escapeByte
    by_cases c1 : b.val = 0x5C ∨ b.val = 0x22
    · rw [if_pos c1]
      have hne : ¬ b.val = 0x75 := by omega
      have hse : simpleEscape b = some b := by
        unfold simpleEscape
        rw [if_pos (by omega)]
      simp [scanStringAux, Fin.coe_ofNat_eq_mod, hne, hse]
    rw [if_neg c1]
    by_cases c2 : b.val = 0x08
    · rw [if_pos c2, show b = 0x08 from Fin.ext c2]
      simp [scanStringAux, simpleEscape, Fin.coe_ofNat_eq_mod]
    rw [if_neg c2]
    by_cases c3 : b.val = 0x0C
    · rw [if_pos c3, show b = 0x0C from Fin.ext c3]
      simp [scanStringAux, simpleEscape, Fin.coe_ofNat_eq_mod]
    rw [if_neg c3]
    by_cases c4 : b.val = 0x0A
    · rw [if_pos c4, show b = 0x0A from Fin.ext c4]
      simp [scanStringAux, simpleEscape, Fin.coe_ofNat_eq_mod]
    rw [if_neg c4]
    by_cases c5 : b.val = 0x0D
    · rw [if_pos c5, show b = 0x0D from Fin.ext c5]
      simp [scanStringAux, simpleEscape, Fin.coe_ofNat_eq_mod]
    rw [if_neg c5]
    by_cases c6 : b.val = 0x09
    · rw [if_pos c6, show b = 0x09 from Fin.ext c6]
      simp [scanStringAux, simpleEscape, Fin.coe_ofNat_eq_mod]
    rw [if_neg c6]
    simp only [List.cons_append, List.nil_append]
    rw [scan_escape_u f _ _ _ _ (b.val / 16 * 16 + b.val % 16) X
      (hex4_00 _ _ (by omega) (by omega) X) (by omega)]
    have hv : b.val / 16 * 16 + b.val % 16 = b.val := by omega
    rw [hv]
    unfold encodeRune
    rw [if_pos (by omega), byte_val]

theorem scan_u202x (f r : Nat) (X : Bytes) (hr : r = 0x2028 ∨ r = 0x2029) :
    scanStringAux (f + 1) ([0x5C, 0x75, 0x32, 0x30, 0x32, hexDigit (r % 16)] ++ X) =
      prepend (encodeRune r) (scanStringAux f X) := by
  rcases hr with rfl | rfl
  · exact scan_escape_u f _ _ _ _ 0x2028 X rfl (by omega)
  · exact scan_escape_u f _ _ _ _ 0x2029 X rfl (by omega)

theorem scan_rune_step (f : Nat) (b : Byte) (rest X : Bytes) (h0 : 0x80 ≤ b.val)
    (hv : ¬ ((decodeRune (b :: rest)).1 = RuneError ∧ (decodeRune (b :: rest)).2 = 1)) :
    scanStringAux (f + 1) ((b :: rest).take (decodeRune (b :: rest)).2 ++ X) =
      prepend ((b :: rest).take (decodeRune (b :: rest)).2) (scanStringAux f X) := by
  obtain ⟨-, h2, hlen, henc, hstable⟩ := decodeRune_wellformed b rest h0 hv
  have hst := hstable X
  obtain ⟨n, hn⟩ : ∃ n, (decodeRune (b :: rest)).2 = n + 1 := ⟨_, (Nat.sub_add_cancel (by omega)).symm⟩
  rw [hn] at hst hlen h2 ⊢
  simp only [List.take_succ_cons, List.cons_append] at hst ⊢
  simp only [scanStringAux]
  rw [if_neg (by omega), if_neg (by omega), if_neg (by omega), if_neg (by omega)]
  rw [hst]
  rw [henc, hn]
  simp only [List.take_succ_cons, Nat.add_sub_cancel]
  have hl : (List.take n rest).length = n := by
    simp only [List.length_cons] at hlen
    simp only [List.length_take]
    omega
  rw [List.drop_append_of_le_length (by omega)]
  rw [List.drop_of_length_le (by omega)]
  simp

theorem scan_replacement (f : Nat) (X : Bytes) :
    scanStringAux (f + 1) ([0x5C, 0x75, 0x66, 0x66, 0x66, 0x64] ++ X) =
      prepend [0xEF, 0xBF, 0xBD] (scanStringAux f X) :=
  scan_escape_u f _ _ _ _ 0xFFFD X rfl (by omega)

/-- Reading back the body the encoder writes for a string, followed by the
closing quote, gives the string coerced to valid UTF-8. -/
theorem scan_appendStringAux (n : Nat) : ∀ (s : Bytes), s.length ≤ n →
    ∀ (fuel : Nat) (tail : Bytes), (appendStringAux n s).length < fuel →
      scanStringAux fuel (appendStringAux n s ++ 0x22 :: tail) =
        some (coerceUTF8Aux n s, tail) := by
  induction n with
  | zero =>
    intro s hlen fuel tail hf
    have hs : s = [] := List.length_eq_zero.mp (Nat.le_zero.mp hlen)
    subst hs
    obtain ⟨f, rfl⟩ : ∃ f, fuel = f + 1 := ⟨fuel - 1, by omega⟩
    simp [appendStringAux, coerceUTF8Aux, scan_quote]
  | succ n ih =>
    intro s hlen fuel tail hf
    obtain ⟨f, rfl⟩ : ∃ f, fuel = f + 1 := ⟨fuel - 1, by omega⟩
    rcases s with _ | ⟨b, rest⟩
    · simp [appendStringAux, coerceUTF8Aux, scan_quote]
    · simp only [List.length_cons, Nat.add_le_add_iff_right] at hlen
      by_cases hb : b.val < 0x80
      · simp only [appendStringAux, coerceUTF8Aux, hb, if_true, List.length_append] at hf ⊢
        rw [List.append_assoc, scan_ascii_step f b _ hb]
        have hpos : 1 ≤ (if htmlSafe b.val then [b] else escapeByte b).length := by
          unfold escapeByte
          split_ifs <;> simp
        rw [ih rest hlen f tail (by omega)]
        rfl
      · by_cases hv : (decodeRune (b :: rest)).1 = RuneError ∧ (decodeRune (b :: rest)).2 = 1
        · simp only [appendStringAux, coerceUTF8Aux, hb, hv, and_self, if_false, if_true,
            List.length_append] at hf ⊢
          rw [List.append_assoc, scan_replacement f]
          rw [ih rest hlen f tail (by simp only [List.length_cons] at hf; omega)]
          rfl
        · obtain ⟨-, h2, hsz, henc, -⟩ := decodeRune_wellformed b rest (by omega) hv
          have hrest : (rest.drop ((decodeRune (b :: rest)).2 - 1)).length ≤ n := by
            simp only [List.length_drop]
            omega
          by_cases hu : (decodeRune (b :: rest)).1 = 0x2028 ∨ (decodeRune (b :: rest)).1 = 0x2029
          · simp only [appendStringAux, coerceUTF8Aux, hb, hv, hu, if_false, if_true,
              List.length_append] at hf ⊢
            rw [List.append_assoc, scan_u202x f _ _ hu]
            rw [ih _ hrest f tail (by simp only [List.length_cons] at hf; omega)]
            rw [prepend_some, henc]
          · simp only [appendStringAux, coerceUTF8Aux, hb, hv, hu, if_false,
              List.length_append] at hf ⊢
            rw [List.append_assoc, scan_rune_step f b rest _ (by omega) hv]
            have hpos : 1 ≤ ((b :: rest).take (decodeRune (b :: rest)).2).length := by
              simp only [List.length_take, List.length_cons]
              omega
            rw [ih _ hrest f tail (by omega)]
            rw [prepend_some]

theorem scanString_appendString (s tail : Bytes) :
    scanString (appendStringAux s.length s ++ 0x22 :: tail) = some (coerceUTF8 s, tail) := by
  unfold scanString
  exact scan_appendStringAux s.length s (le_refl _) _ tail
    (by simp only [List.length_append, List.length_cons]; omega)

/-! ## Coercion to valid UTF-8 changes exactly the strings that are not valid -/

theorem take_append_drop_rune (b : Byte) (rest : Bytes) (h : 1 ≤ (decodeRune (b :: rest)).2) :
    (b :: rest).take (decodeRune (b :: rest)).2 ++ rest.drop ((decodeRune (b :: rest)).2 - 1) =
      b :: rest := by
  obtain ⟨m, hm⟩ : ∃ m, (decodeRune (b :: rest)).2 = m + 1 :=
    ⟨_, (Nat.sub_add_cancel h).symm⟩
  rw [hm]
  simp

theorem coerceUTF8Aux_of_valid (n : Nat) : ∀ (s : Bytes), s.length ≤ n →
    validUTF8Aux n s = true → coerceUTF8Aux n s = s := by
  induction n with
  | zero =>
    intro s hlen _
    have hs : s = [] := List.length_eq_zero.mp (Nat.le_zero.mp hlen)
    subst hs
    rfl
  | succ n ih =>
    intro s hlen hvalid
    rcases s with _ | ⟨b, rest⟩
    · rfl
    · simp only [List.length_cons, Nat.add_le_add_iff_right] at hlen
      by_cases hb : b.val < 0x80
      · simp only [validUTF8Aux, hb, if_true] at hvalid
        simp only [coerceUTF8Aux, hb, if_true, ih rest hlen hvalid]
      · by_cases hv : (decodeRune (b :: rest)).1 = RuneError ∧ (decodeRune (b :: rest)).2 = 1
        · simp [validUTF8Aux, hb, hv] at hvalid
        · simp only [validUTF8Aux, hb, hv, if_false] at hvalid
          obtain ⟨-, h2, hsz, -, -⟩ := decodeRune_wellformed b rest (by omega) hv
          have hrest : (rest.drop ((decodeRune (b :: rest)).2 - 1)).length ≤ n := by
            simp only [List.length_drop]
            omega
          simp only [coerceUTF8Aux, hb, hv, if_false, ih _ hrest hvalid]
          exact take_append_drop_rune b rest (by omega)

theorem valid_of_coerceUTF8Aux (n : Nat) : ∀ (s : Bytes), s.length ≤ n →
    coerceUTF8Aux n s = s → validUTF8Aux n s = true := by
  induction n with
  | zero =>
    intro s hlen _
    have hs : s = [] := List.length_eq_zero.mp (Nat.le_zero.mp hlen)
    subst hs
    rfl
  | succ n ih =>
    intro s hlen hfix
    rcases s with _ | ⟨b, rest⟩
    · rfl
    · simp only [List.length_cons, Nat.add_le_add_iff_right] at hlen
      by_cases hb : b.val < 0x80
      · simp only [coerceUTF8Aux, hb, if_true, List.cons.injEq, true_and] at hfix
        simp only [validUTF8Aux, hb, if_true]
        exact ih rest hlen hfix
      · by_cases hv : (decodeRune (b :: rest)).1 = RuneError ∧ (decodeRune (b :: rest)).2 = 1
        · exfalso
          simp only [coerceUTF8Aux, hb, hv, and_self, if_false, if_true, List.cons_append,
            List.nil_append, List.cons.injEq] at hfix
          obtain ⟨hb0, hrest⟩ := hfix
          rcases rest with _ | ⟨b1, _ | ⟨b2, rest2⟩⟩
          · simp at hrest
          · simp at hrest
          · simp only [List.cons.injEq] at hrest
            obtain ⟨h1, h2, -⟩ := hrest
            have hsize : (decodeRune (b :: b1 :: b2 :: rest2)).2 = 3 := by
              rw [← hb0, ← h1, ← h2]
              simp [decodeRune, accepts, acceptRange, isCont, Fin.coe_ofNat_eq_mod]
            omega
        · obtain ⟨-, h2, hsz, -, -⟩ := decodeRune_wellformed b rest (by omega) hv
          have hrest : (rest.drop ((decodeRune (b :: rest)).2 - 1)).length ≤ n := by
            simp only [List.length_drop]
            omega
          simp only [coerceUTF8Aux, hb, hv, if_false] at hfix
          have hsplit := take_append_drop_rune b rest (by omega)
          have hfix' : coerceUTF8Aux n (rest.drop ((decodeRune (b :: rest)).2 - 1)) =
              rest.drop ((decodeRune (b :: rest)).2 - 1) := by
            have := hfix.trans hsplit.symm
            exact List.append_cancel_left this
          simp only [validUTF8Aux, hb, hv, if_false]
          exact ih _ hrest hfix'

/-- Coercion to valid UTF-8 keeps a string exactly when it is well-formed UTF-8. -/
theorem coerceUTF8_eq_iff (s : Bytes) : coerceUTF8 s = s ↔ validUTF8 s = true :=
  ⟨valid_of_coerceUTF8Aux s.length s (le_refl _),
    coerceUTF8Aux_of_valid s.length s (le_refl _)⟩

/-! ## A marshalled device is unmarshalled to itself, coerced to valid UTF-8 -/

theorem skipWS_cons (c : Byte) (r : Bytes) (h : isSpace c = false) : skipWS (c :: r) = c :: r := by
  simp [skipWS, h]

theorem parseValue_string (f depth : Nat) (s tail : Bytes) :
    parseValue (f + 1) depth (0x22 :: (appendStringAux s.length s ++ 0x22 :: tail)) =
      some (JValue.string (coerceUTF8 s), tail) := by
  simp [parseValue, Fin.coe_ofNat_eq_mod, scanString_appendString s tail]

theorem parseMembers_last (f depth : Nat) (key v tail : Bytes) :
    parseMembers (f + 2) depth
      (0x22 :: (appendStringAux key.length key ++ 0x22 :: 0x3A :: 0x22 ::
        (appendStringAux v.length v ++ 0x22 :: 0x7D :: tail))) =
      some ([(coerceUTF8 key, JValue.string (coerceUTF8 v))], tail) := by
  rw [parseMembers]
  rw [if_pos (by decide), scanString_appendString key _]
  simp only
  rw [skipWS_cons _ _ (by decide)]
  simp only
  rw [if_pos (by decide), skipWS_cons _ _ (by decide), parseValue_string f depth v _]
  simp only
  rw [skipWS_cons _ _ (by decide)]
  simp only
  rw [if_neg (by decide), if_pos (by decide)]

theorem parseMembers_more (f depth : Nat) (key v tail : Bytes) :
    parseMembers (f + 2) depth
      (0x22 :: (appendStringAux key.length key ++ 0x22 :: 0x3A :: 0x22 ::
        (appendStringAux v.length v ++ 0x22 :: 0x2C :: tail))) =
      (parseMembers (f + 1) depth (skipWS tail)).map
        (fun p => ((coerceUTF8 key, JValue.string (coerceUTF8 v)) :: p.1, p.2)) := by
  rw [parseMembers]
  rw [if_pos (by decide), scanString_appendString key _]
  simp only
  rw [skipWS_cons _ _ (by decide)]
  simp only
  rw [if_pos (by decide), skipWS_cons _ _ (by decide), parseValue_string f depth v _]
  simp only
  rw [skipWS_cons _ _ (by decide)]
  simp only
  rw [if_pos (by decide)]

/-- The bytes `json.Marshal` writes for a device, member by member. -/
theorem jsonMarshal_eq (d : Device) :
    jsonMarshal d =
      0x7B :: 0x22 :: (appendStringAux (ascii "deviceid").length (ascii "deviceid") ++
        0x22 :: 0x3A :: 0x22 :: (appendStringAux d.ID.length d.ID ++
        0x22 :: 0x2C :: 0x22 :: (appendStringAux (ascii "timestamp").length (ascii "timestamp") ++
        0x22 :: 0x3A :: 0x22 :: (appendStringAux d.Time.length d.Time ++
        0x22 :: 0x7D :: [])))) := by
  have h1 : ascii "\x7b\"deviceid\":" =
      0x7B :: 0x22 :: (appendStringAux (ascii "deviceid").length (ascii "deviceid") ++
        [0x22, 0x3A]) := by decide
  have h2 : ascii ",\"timestamp\":" =
      0x2C :: 0x22 :: (appendStringAux (ascii "timestamp").length (ascii "timestamp") ++
        [0x22, 0x3A]) := by decide
  have h3 : ascii "\x7d" = [0x7D] := by decide
  rw [jsonMarshal, h1, h2, h3]
  simp [appendString]

theorem parseValue_marshal (k : Nat) (d : Device) :
    parseValue (k + 4) 0 (jsonMarshal d) =
      some (JValue.object [(ascii "deviceid", JValue.string (coerceUTF8 d.ID)),
        (ascii "timestamp", JValue.string (coerceUTF8 d.Time))], []) := by
  have hk1 : coerceUTF8 (ascii "deviceid") = ascii "deviceid" := by decide
  have hk2 : coerceUTF8 (ascii "timestamp") = ascii "timestamp" := by decide
  rw [jsonMarshal_eq, parseValue]
  rw [if_pos (by decide), if_neg (by decide), skipWS_cons _ _ (by decide)]
  simp only
  rw [if_neg (by decide)]
  rw [parseMembers_more (k + 1) 1 (ascii "deviceid") d.ID _]
  rw [skipWS_cons _ _ (by decide)]
  rw [parseMembers_last k 1 (ascii "timestamp") d.Time _, hk1, hk2]
  rfl

theorem parseJSON_marshal (d : Device) :
    parseJSON (jsonMarshal d) =
      some (JValue.object [(ascii "deviceid", JValue.string (coerceUTF8 d.ID)),
        (ascii "timestamp", JValue.string (coerceUTF8 d.Time))]) := by
  have hlen : 3 ≤ (jsonMarshal d).length := by
    rw [jsonMarshal_eq]
    simp only [List.length_cons, List.length_append]
    omega
  obtain ⟨k, hk⟩ : ∃ k, (jsonMarshal d).length + 1 = k + 4 :=
    ⟨(jsonMarshal d).length - 3, by omega⟩
  have hws : skipWS (jsonMarshal d) = jsonMarshal d := by
    rw [jsonMarshal_eq]
    exact skipWS_cons _ _ (by decide)
  rw [parseJSON, hws, hk, parseValue_marshal k d]
  rfl

/-- What `json.Unmarshal` reads back from what `json.Marshal` wrote for a
device: the device with both strings coerced to valid UTF-8, and no error. -/
theorem jsonUnmarshal_jsonMarshal_coerced (d : Device) :
    jsonUnmarshal (jsonMarshal d) Device.zero =
      (⟨coerceUTF8 d.ID, coerceUTF8 d.Time⟩, none) := by
  have hf1 : fieldOf (ascii "deviceid") = some Field.ID := by decide
  have hf2 : fieldOf (ascii "timestamp") = some Field.Time := by decide
  rw [jsonUnmarshal, parseJSON_marshal d]
  simp [storeMember, hf1, hf2, Device.set, Device.zero]

/-- Round trip of the record format: for a device whose two strings are
well-formed UTF-8, `json.Unmarshal` of what `json.Marshal` wrote, into a fresh
device, gives the device back and reports no error. -/
theorem jsonUnmarshal_jsonMarshal (d : Device)
    (hid : validUTF8 d.ID = true) (hts : validUTF8 d.Time = true) :
    jsonUnmarshal (jsonMarshal d) Device.zero = (d, none) := by
  rw [jsonUnmarshal_jsonMarshal_coerced, (coerceUTF8_eq_iff d.ID).2 hid,
    (coerceUTF8_eq_iff d.Time).2 hts]

/-- The round trip of the record format is exact for the devices whose two
strings are well-formed UTF-8, and only for them. -/
theorem jsonUnmarshal_jsonMarshal_iff (d : Device) :
    jsonUnmarshal (jsonMarshal d) Device.zero = (d, none) ↔
      (validUTF8 d.ID = true ∧ validUTF8 d.Time = true) := by
  constructor
  · intro h
    rw [jsonUnmarshal_jsonMarshal_coerced] at h
    have hd := congrArg Prod.fst h
    simp only at hd
    exact ⟨(coerceUTF8_eq_iff d.ID).1 (congrArg Device.ID hd),
      (coerceUTF8_eq_iff d.Time).1 (congrArg Device.Time hd)⟩
  · rintro ⟨hid, hts⟩
    exact jsonUnmarshal_jsonMarshal d hid hts

/-! ## The world state -/

theorem get_put_self (key value : Bytes) (w : WorldState) :
    (w.put key value).get key = some value := by
  induction w with
  | nil => simp [WorldState.put, WorldState.get]
  | cons e rest ih =>
    obtain ⟨k, v⟩ := e
    by_cases hk : k = key
    · simp [WorldState.put, WorldState.get, hk]
    · by_cases hl : keyLess key k = true
      · simp [WorldState.put, WorldState.get, hk, hl]
      · simp [WorldState.put, WorldState.get, hk, hl, ih]

theorem get_put_other (key value other : Bytes) (w : WorldState) (h : other ≠ key) :
    (w.put key value).get other = w.get other := by
  induction w with
  | nil => simp [WorldState.put, WorldState.get, Ne.symm h]
  | cons e rest ih =>
    obtain ⟨k, v⟩ := e
    by_cases hk : k = key
    · subst hk
      simp [WorldState.put, WorldState.get, Ne.symm h]
    · by_cases hl : keyLess key k = true
      · simp [WorldState.put, WorldState.get, hk, hl, Ne.symm h]
      · by_cases hko : k = other
        · subst hko
          simp [WorldState.put, WorldState.get, hk, hl]
        · simp [WorldState.put, WorldState.get, hk, hl, hko, ih]

theorem get_del (key other : Bytes) (w : WorldState) :
    (w.del key).get other = if other = key then none else w.get other := by
  induction w with
  | nil => simp [WorldState.del, WorldState.get]
  | cons e rest ih =>
    obtain ⟨k, v⟩ := e
    simp only [WorldState.del] at ih
    by_cases hk : k = key
    · subst hk
      by_cases ho : other = k
      · subst ho
        simpa [WorldState.del, WorldState.get] using ih
      · simpa [WorldState.del, WorldState.get, ho, Ne.symm ho] using ih
    · by_cases ho : other = key
      · subst ho
        simpa [WorldState.del, WorldState.get, hk] using ih
      · by_cases hko : k = other
        · simp [WorldState.del, WorldState.get, hk, ho, hko]
        · simpa [WorldState.del, WorldState.get, hk, ho, hko] using ih

theorem range_all (w : WorldState) : w.range [] [] = w := by
  simp [WorldState.range]

/-! ## The stub -/

@[simp] theorem log_state (s : Stub) (c : Call) : (s.log c).state = s.state := rfl

@[simp] theorem log_faults (s : Stub) (c : Call) : (s.log c).faults = s.faults := rfl

@[simp] theorem log_calls (s : Stub) (c : Call) : (s.log c).calls = s.calls ++ [c] := rfl

theorem callsSince_append (s t : Stub) (tr : List Call) (h : t.calls = s.calls ++ tr) :
    callsSince s t = tr := by
  simp [callsSince, h]

/-! ## The loop of `QueryAllDevices` -/

theorem loop_state (entries : WorldState) (pos : Nat) (s : Stub) (results : List QueryResult) :
    (QueryAllDevices.loop entries pos s results).1.state = s.state := by
  induction entries generalizing pos s results with
  | nil => simp [QueryAllDevices.loop]
  | cons e rest ih =>
    obtain ⟨k, v⟩ := e
    cases hn : s.faults.next pos with
    | some err => simp [QueryAllDevices.loop, hn]
    | none => simp [QueryAllDevices.loop, hn, ih]

theorem loop_faults (entries : WorldState) (pos : Nat) (s : Stub) (results : List QueryResult) :
    (QueryAllDevices.loop entries pos s results).1.faults = s.faults := by
  induction entries generalizing pos s results with
  | nil => simp [QueryAllDevices.loop]
  | cons e rest ih =>
    obtain ⟨k, v⟩ := e
    cases hn : s.faults.next pos with
    | some err => simp [QueryAllDevices.loop, hn]
    | none => simp [QueryAllDevices.loop, hn, ih]

theorem loop_calls (entries : WorldState) (pos : Nat) (s : Stub) (results : List QueryResult) :
    ∃ tr, (QueryAllDevices.loop entries pos s results).1.calls = s.calls ++ tr ∧
      tr.count Call.Close = 0 := by
  induction entries generalizing pos s results with
  | nil => exact ⟨[Call.HasNext], by simp [QueryAllDevices.loop], by decide⟩
  | cons e rest ih =>
    obtain ⟨k, v⟩ := e
    cases hn : s.faults.next pos with
    | some err =>
      exact ⟨[Call.HasNext, Call.Next], by simp [QueryAllDevices.loop, hn], by decide⟩
    | none =>
      obtain ⟨tr, htr, hc⟩ := ih (pos + 1) ((s.log Call.HasNext).log Call.Next)
        (results ++ [{ Key := k, Record := some (jsonUnmarshal v Device.zero).1 }])
      refine ⟨[Call.HasNext, Call.Next] ++ tr, ?_, ?_⟩
      · simp [QueryAllDevices.loop, hn, htr]
      · rw [List.count_append, hc]
        decide

theorem loop_ok (entries : WorldState) (pos : Nat) (s : Stub) (results : List QueryResult)
    (hnext : ∀ i, s.faults.next i = none) :
    (QueryAllDevices.loop entries pos s results).2 =
      (some (results ++ entries.map
        (fun e => { Key := e.1, Record := some (jsonUnmarshal e.2 Device.zero).1 })), none) := by
  induction entries generalizing pos s results with
  | nil => simp [QueryAllDevices.loop]
  | cons e rest ih =>
    obtain ⟨k, v⟩ := e
    simp [QueryAllDevices.loop, hnext pos]
    rw [ih]
    · simp
    · simpa using hnext

theorem queryAll_ok (s : Stub) (hrange : s.faults.getStateByRange = none)
    (hnext : ∀ i, s.faults.next i = none) :
    (QueryAllDevices s).2 =
      (some (s.state.map
        (fun e => { Key := e.1, Record := some (jsonUnmarshal e.2 Device.zero).1 })), none) := by
  have h := loop_ok s.state 0 (s.log (Call.GetStateByRange [] [])) [] (by simpa using hnext)
  simp only [QueryAllDevices, Stub.GetStateByRange, hrange, range_all]
  refine Prod.ext ?_ ?_
  · exact (congrArg Prod.fst h).trans (by simp)
  · exact congrArg Prod.snd h

/-! ## The reads leave the world state alone -/

theorem QueryDevice_state (s : Stub) (id : Bytes) : (QueryDevice s id).1.state = s.state := by
  unfold QueryDevice Stub.GetState
  cases s.faults.getState id with
  | some err => rfl
  | none => cases s.state.get id <;> rfl

theorem DeviceExists_state (s : Stub) (id : Bytes) : (DeviceExists s id).1.state = s.state := by
  unfold DeviceExists Stub.GetState
  cases s.faults.getState id <;> rfl

theorem QueryAllDevices_state (s : Stub) : (QueryAllDevices s).1.state = s.state := by
  unfold QueryAllDevices Stub.GetStateByRange
  cases s.faults.getStateByRange with
  | some err => rfl
  | none => simp [loop_state]

theorem QueryDevice_faults (s : Stub) (id : Bytes) : (QueryDevice s id).1.faults = s.faults := by
  unfold QueryDevice Stub.GetState
  cases s.faults.getState id with
  | some err => rfl
  | none => cases s.state.get id <;> rfl

theorem DeviceExists_faults (s : Stub) (id : Bytes) :
    (DeviceExists s id).1.faults = s.faults := by
  unfold DeviceExists Stub.GetState
  cases s.faults.getState id <;> rfl

theorem QueryAllDevices_faults (s : Stub) : (QueryAllDevices s).1.faults = s.faults := by
  unfold QueryAllDevices Stub.GetStateByRange
  cases s.faults.getStateByRange with
  | some err => rfl
  | none => simp [loop_faults]

/-! ## Single calls -/

theorem QueryDevice_absent (s : Stub) (id : Bytes) (hread : s.faults.getState id = none)
    (habs : s.state.get id = none) :
    (QueryDevice s id).2 = (none, some (id ++ ascii " does not exist")) := by
  simp [QueryDevice, Stub.GetState, hread, habs]

theorem QueryDevice_present (s : Stub) (id value : Bytes)
    (hread : s.faults.getState id = none) (hpres : s.state.get id = some value) :
    (QueryDevice s id).2 = (some (jsonUnmarshal value Device.zero).1, none) := by
  simp [QueryDevice, Stub.GetState, hread, hpres]

theorem DeviceExists_ok (s : Stub) (id : Bytes) (hread : s.faults.getState id = none) :
    (DeviceExists s id).2 = ((s.state.get id).isSome, none) := by
  simp [DeviceExists, Stub.GetState, hread]

theorem DeleteAsset_absent (s : Stub) (id : Bytes) (hread : s.faults.getState id = none)
    (habs : s.state.get id = none) :
    DeleteAsset s id =
      (s.log (Call.GetState id), some (ascii "the asset " ++ id ++ ascii " does not exist")) := by
  simp [DeleteAsset, DeviceExists, Stub.GetState, hread, habs]

theorem DeleteAsset_present (s : Stub) (id value : Bytes)
    (hread : s.faults.getState id = none) (hdel : s.faults.delState id = none)
    (hpres : s.state.get id = some value) :
    DeleteAsset s id =
      ({ s with state := s.state.del id, calls := s.calls ++ [Call.GetState id, Call.DelState id] },
        none) := by
  simp [DeleteAsset, DeviceExists, Stub.GetState, Stub.DelState, Stub.log, hread, hdel, hpres]

/-! ## Claims about single calls -/

/-- C2. Absence is reported, not conflated: when the read of `id` succeeds and
`id` has no value in the world state, `QueryDevice` returns no device and the
not-found error, and `DeviceExists` returns false and no error; and on any stub,
`DeviceExists` returns an error only when `GetState` itself fails. -/
theorem absence_is_reported (s : Stub) (id : Bytes)
    (hread : s.faults.getState id = none) (habs : s.state.get id = none) :
    (QueryDevice s id).2 = (none, some (id ++ ascii " does not exist")) ∧
    (DeviceExists s id).2 = (false, none) ∧
    (∀ (t : Stub) (key : Bytes),
      (DeviceExists t key).2.2 ≠ none → t.faults.getState key ≠ none) := by
  refine ⟨QueryDevice_absent s id hread habs, ?_, ?_⟩
  · simp [DeviceExists_ok s id hread, habs]
  · intro t key herr hok
    exact herr (by simp [DeviceExists_ok t key hok])

theorem absence_is_reported_witness :
    (Stub.empty.faults.getState (ascii "dev-1") = none ∧
      Stub.empty.state.get (ascii "dev-1") = none) ∧
    ((QueryDevice Stub.empty (ascii "dev-1")).2 =
        (none, some (ascii "dev-1" ++ ascii " does not exist")) ∧
      (DeviceExists Stub.empty (ascii "dev-1")).2 = (false, none) ∧
      (∀ (t : Stub) (key : Bytes),
        (DeviceExists t key).2.2 ≠ none → t.faults.getState key ≠ none)) :=
  ⟨⟨rfl, rfl⟩, absence_is_reported Stub.empty (ascii "dev-1") rfl rfl⟩

/-- C3. Delete of a missing device is atomic: when the read of `id` succeeds and
`id` has no value, `DeleteAsset` returns the not-found error, the only call it
makes on the stub is `GetState(id)` (so `DelState` is never called), and the
world state is exactly as it was. -/
theorem delete_missing_is_atomic (s : Stub) (id : Bytes)
    (hread : s.faults.getState id = none) (habs : s.state.get id = none) :
    (DeleteAsset s id).2 = some (ascii "the asset " ++ id ++ ascii " does not exist") ∧
    callsSince s (DeleteAsset s id).1 = [Call.GetState id] ∧
    (∀ key, Call.DelState key ∉ callsSince s (DeleteAsset s id).1) ∧
    (DeleteAsset s id).1.state = s.state ∧
    (∀ key, (DeleteAsset s id).1.state.get key = s.state.get key) := by
  rw [DeleteAsset_absent s id hread habs]
  have hc : callsSince s (s.log (Call.GetState id)) = [Call.GetState id] :=
    callsSince_append _ _ _ rfl
  refine ⟨rfl, hc, ?_, rfl, fun _ => rfl⟩
  intro key hmem
  simp [hc] at hmem

theorem delete_missing_is_atomic_witness :
    (Stub.empty.faults.getState (ascii "dev-1") = none ∧
      Stub.empty.state.get (ascii "dev-1") = none) ∧
    ((DeleteAsset Stub.empty (ascii "dev-1")).2 =
        some (ascii "the asset " ++ ascii "dev-1" ++ ascii " does not exist") ∧
      callsSince Stub.empty (DeleteAsset Stub.empty (ascii "dev-1")).1 =
        [Call.GetState (ascii "dev-1")] ∧
      (∀ key, Call.DelState key ∉ callsSince Stub.empty (DeleteAsset Stub.empty (ascii "dev-1")).1) ∧
      (DeleteAsset Stub.empty (ascii "dev-1")).1.state = Stub.empty.state ∧
      (∀ key, (DeleteAsset Stub.empty (ascii "dev-1")).1.state.get key =
        Stub.empty.state.get key)) :=
  ⟨⟨rfl, rfl⟩, delete_missing_is_atomic Stub.empty (ascii "dev-1") rfl rfl⟩

/-- C4. Delete of an existing device removes it: when the calls on `id` succeed
and `id` has a value, `DeleteAsset` returns no error and the world state
afterwards is the original one with `id` erased (every other key keeps its
value); afterwards `DeviceExists` returns false, `QueryDevice` the not-found
error, and a second `DeleteAsset` the not-found error. -/
theorem delete_existing_removes (s : Stub) (id value : Bytes)
    (hread : s.faults.getState id = none) (hdel : s.faults.delState id = none)
    (hpres : s.state.get id = some value) :
    (DeleteAsset s id).2 = none ∧
    (DeleteAsset s id).1.state = s.state.del id ∧
    (∀ key, (DeleteAsset s id).1.state.get key = if key = id then none else s.state.get key) ∧
    (DeviceExists (DeleteAsset s id).1 id).2 = (false, none) ∧
    (QueryDevice (DeleteAsset s id).1 id).2 = (none, some (id ++ ascii " does not exist")) ∧
    (DeleteAsset (DeleteAsset s id).1 id).2 =
      some (ascii "the asset " ++ id ++ ascii " does not exist") := by
  rw [DeleteAsset_present s id value hread hdel hpres]
  have hgone : (s.state.del id).get id = none := by simp [get_del]
  dsimp only
  generalize ht :
    (⟨s.state.del id, s.faults, s.calls ++ [Call.GetState id, Call.DelState id]⟩ : Stub) = t
  have hread' : t.faults.getState id = none := by rw [← ht]; exact hread
  have hgone' : t.state.get id = none := by rw [← ht]; exact hgone
  refine ⟨rfl, rfl, fun key => get_del id key s.state, ?_, ?_, ?_⟩
  · rw [DeviceExists_ok t id hread']
    simp [hgone']
  · exact QueryDevice_absent t id hread' hgone'
  · rw [DeleteAsset_absent t id hread' hgone']

theorem delete_existing_removes_witness :
    ((RegisterDevice Stub.empty [100] [49]).1.faults.getState [100] = none ∧
      (RegisterDevice Stub.empty [100] [49]).1.faults.delState [100] = none ∧
      (RegisterDevice Stub.empty [100] [49]).1.state.get [100] =
        some (jsonMarshal ⟨[100], [49]⟩)) ∧
    ((DeleteAsset (RegisterDevice Stub.empty [100] [49]).1 [100]).2 = none ∧
      (DeleteAsset (RegisterDevice Stub.empty [100] [49]).1 [100]).1.state = [] ∧
      (DeleteAsset (DeleteAsset (RegisterDevice Stub.empty [100] [49]).1 [100]).1 [100]).2 =
        some (ascii "the asset " ++ [100] ++ ascii " does not exist")) :=
  ⟨⟨rfl, rfl, by decide⟩,
    have h := delete_existing_removes (RegisterDevice Stub.empty [100] [49]).1 [100]
      (jsonMarshal ⟨[100], [49]⟩) rfl rfl (by decide)
    ⟨h.1, h.2.1.trans (by decide), h.2.2.2.2.2⟩⟩

/-- C9. Iterator release: when `GetStateByRange` succeeds, `QueryAllDevices`
calls the iterator's `Close` exactly once, whether the scan is drained or
`Next` fails part-way through; when `GetStateByRange` fails, `Close` is not
called and the error is returned with no results. -/
theorem iterator_released_once (s : Stub) :
    match s.faults.getStateByRange with
    | none => (callsSince s (QueryAllDevices s).1).count Call.Close = 1
    | some err =>
      (callsSince s (QueryAllDevices s).1).count Call.Close = 0 ∧
        (QueryAllDevices s).2 = (none, some err) := by
  cases hr : s.faults.getStateByRange with
  | some err =>
    have hc : callsSince s (QueryAllDevices s).1 = [Call.GetStateByRange [] []] :=
      callsSince_append _ _ _ (by simp [QueryAllDevices, Stub.GetStateByRange, hr])
    refine ⟨by rw [hc]; decide, ?_⟩
    simp [QueryAllDevices, Stub.GetStateByRange, hr]
  | none =>
    obtain ⟨tr, htr, hcount⟩ :=
      loop_calls (s.state.range [] []) 0 (s.log (Call.GetStateByRange [] [])) []
    have hc : callsSince s (QueryAllDevices s).1 =
        [Call.GetStateByRange [] []] ++ tr ++ [Call.Close] :=
      callsSince_append _ _ _ (by simp [QueryAllDevices, Stub.GetStateByRange, hr, htr])
    show (callsSince s (QueryAllDevices s).1).count Call.Close = 1
    rw [hc, List.count_append, List.count_append, hcount]
    decide

/-- C10. `QueryAllDevices` never surfaces a per-entry decode failure: when the
range scan and every `Next` succeed it returns no error and one result per
entry of the world state, in the iterator's order, each with the entry's key
and the device `json.Unmarshal` left (whatever its error); the number of
results is the number of entries. -/
theorem queryAll_never_surfaces_decode_failure (s : Stub)
    (hrange : s.faults.getStateByRange = none) (hnext : ∀ i, s.faults.next i = none) :
    (QueryAllDevices s).2.2 = none ∧
    ∃ results, (QueryAllDevices s).2.1 = some results ∧
      results = s.state.map
        (fun e => { Key := e.1, Record := some (jsonUnmarshal e.2 Device.zero).1 }) ∧
      results.map (fun r => r.Key) = s.state.map (fun e => e.1) ∧
      results.length = s.state.length := by
  rw [queryAll_ok s hrange hnext]
  refine ⟨rfl, _, rfl, rfl, ?_, ?_⟩
  · simp [Function.comp_def]
  · simp

theorem queryAll_never_surfaces_decode_failure_witness :
    ((⟨[([97], ascii "garbage"), ([98], jsonMarshal ⟨[98], [49]⟩)], Faults.none, []⟩ :
        Stub).faults.getStateByRange = none ∧
      (∀ i, (⟨[([97], ascii "garbage"), ([98], jsonMarshal ⟨[98], [49]⟩)], Faults.none, []⟩ :
        Stub).faults.next i = none)) ∧
    (QueryAllDevices ⟨[([97], ascii "garbage"), ([98], jsonMarshal ⟨[98], [49]⟩)],
        Faults.none, []⟩).2 =
      (some [⟨[97], some Device.zero⟩, ⟨[98], some ⟨[98], [49]⟩⟩], none) :=
  ⟨⟨rfl, fun _ => rfl⟩, by
    have h := queryAll_never_surfaces_decode_failure
      ⟨[([97], ascii "garbage"), ([98], jsonMarshal ⟨[98], [49]⟩)], Faults.none, []⟩
      rfl (fun _ => rfl)
    obtain ⟨herr, results, hres, hval, -, -⟩ := h
    refine Prod.ext ?_ herr
    rw [hres, hval]
    decide⟩

/-! ## Histories -/

theorem RegisterDevice_faults (s : Stub) (id ts : Bytes) :
    (RegisterDevice s id ts).1.faults = s.faults := by
  cases h : s.faults.putState id (jsonMarshal { ID := id, Time := ts }) <;>
    simp [RegisterDevice, Stub.PutState, h]

theorem DeleteAsset_faults (s : Stub) (id : Bytes) : (DeleteAsset s id).1.faults = s.faults := by
  unfold DeleteAsset DeviceExists Stub.GetState Stub.DelState
  cases s.faults.getState id with
  | some err => rfl
  | none =>
    cases s.state.get id with
    | none => rfl
    | some v => cases hd : s.faults.delState id <;> simp [hd]

theorem step_faults (s : Stub) (op : Op) : (step s op).1.faults = s.faults := by
  cases op with
  | register id ts => exact RegisterDevice_faults s id ts
  | delete id => exact DeleteAsset_faults s id
  | query id => exact QueryDevice_faults s id
  | exist id => exact DeviceExists_faults s id
  | queryAll => exact QueryAllDevices_faults s

theorem runAll_faults (ops : List Op) : ∀ s : Stub, (runAll s ops).1.faults = s.faults := by
  induction ops with
  | nil => intro s; rfl
  | cons op ops ih =>
    intro s
    simp only [runAll]
    rw [ih, step_faults]

theorem RegisterDevice_ok (s : Stub) (id ts : Bytes)
    (hput : s.faults.putState id (jsonMarshal ⟨id, ts⟩) = none) :
    (RegisterDevice s id ts).2 = none ∧
      (RegisterDevice s id ts).1.state = s.state.put id (jsonMarshal ⟨id, ts⟩) := by
  simp [RegisterDevice, Stub.PutState, hput]

theorem RegisterDevice_succeeds (s : Stub) (id ts : Bytes) (h : (RegisterDevice s id ts).2 = none) :
    (RegisterDevice s id ts).1.state = s.state.put id (jsonMarshal ⟨id, ts⟩) := by
  cases hput : s.faults.putState id (jsonMarshal ⟨id, ts⟩) with
  | none => exact (RegisterDevice_ok s id ts hput).2
  | some err => simp [RegisterDevice, Stub.PutState, hput] at h

/-- One invocation on a host that never fails: afterwards `id` has a value
exactly when the invocation was a successful `RegisterDevice` for `id`, or `id`
had a value before and the invocation was not a successful `DeleteAsset` for `id`. -/
theorem step_exists (s : Stub) (op : Op) (id : Bytes) (hf : s.faults = Faults.none) :
    (((step s op).1.state.get id).isSome = true ↔
      ((∃ ts, op = Op.register id ts) ∧ (step s op).2 = none) ∨
      ((s.state.get id).isSome = true ∧ ¬ (op = Op.delete id ∧ (step s op).2 = none))) := by
  have hget : ∀ key, s.faults.getState key = none := fun key => by rw [hf]; rfl
  have hput : ∀ key v, s.faults.putState key v = none := fun key v => by rw [hf]; rfl
  have hdel : ∀ key, s.faults.delState key = none := fun key => by rw [hf]; rfl
  cases op with
  | register id' ts =>
    obtain ⟨hres, hstate⟩ := RegisterDevice_ok s id' ts (hput _ _)
    simp only [step, hres, hstate]
    by_cases hid : id = id'
    · subst hid
      simp [get_put_self]
    · have hne : ∀ t, ¬ (Op.register id' ts = Op.register id t) := by
        intro t h
        injection h with h1 _
        exact hid h1.symm
      simp [get_put_other _ _ _ _ hid, hne]
  | delete id' =>
    simp only [step]
    cases hv : s.state.get id' with
    | none =>
      rw [DeleteAsset_absent s id' (hget _) hv]
      by_cases hid : id = id'
      · subst hid
        simp [hv]
      · simp
    | some v =>
      rw [DeleteAsset_present s id' v (hget _) (hdel _) hv]
      by_cases hid : id = id'
      · subst hid
        simp [get_del]
      · have hne : ¬ (Op.delete id' = Op.delete id) := by
          intro h
          injection h with h1
          exact hid h1.symm
        simp [get_del, hid, hne]
  | query id' => simp [step, QueryDevice_state]
  | exist id' => simp [step, DeviceExists_state]
  | queryAll => simp [step, QueryAllDevices_state]

theorem exists_nat_zero_or_succ (P : Nat → Prop) : (∃ i, P i) ↔ P 0 ∨ ∃ i, P (i + 1) := by
  constructor
  · rintro ⟨i, hi⟩
    cases i with
    | zero => exact Or.inl hi
    | succ i => exact Or.inr ⟨i, hi⟩
  · rintro (h | ⟨i, hi⟩)
    · exact ⟨0, h⟩
    · exact ⟨i + 1, hi⟩

theorem forall_nat_zero_and_succ (P : Nat → Prop) : (∀ i, P i) ↔ P 0 ∧ ∀ i, P (i + 1) := by
  constructor
  · intro h
    exact ⟨h 0, fun i => h (i + 1)⟩
  · rintro ⟨h0, hs⟩ i
    cases i with
    | zero => exact h0
    | succ i => exact hs i

theorem history_glue {L A A1 B B1 C C1 R N D : Prop} (h2 : L ↔ A1 ∨ (B1 ∧ C1))
    (h1 : B1 ↔ (R ∧ N) ∨ (B ∧ ¬ (D ∧ N))) (hA : A ↔ (R ∧ N ∧ C1) ∨ A1)
    (hC : C ↔ ¬ (D ∧ N) ∧ C1) : L ↔ A ∨ (B ∧ C) := by
  rw [h2, h1, hA, hC]
  constructor
  · rintro (a | ⟨(⟨r, n⟩ | ⟨b, x⟩), c⟩)
    · exact Or.inl (Or.inr a)
    · exact Or.inl (Or.inl ⟨r, n, c⟩)
    · exact Or.inr ⟨b, x, c⟩
  · rintro ((⟨r, n, c⟩ | a) | ⟨b, x, c⟩)
    · exact Or.inr ⟨Or.inl ⟨r, n⟩, c⟩
    · exact Or.inl a
    · exact Or.inr ⟨Or.inr ⟨b, x⟩, c⟩

/-- The existence invariant from any stub on a host that never fails. -/
theorem runAll_exists (ops : List Op) (id : Bytes) : ∀ s : Stub, s.faults = Faults.none →
    (((runAll s ops).1.state.get id).isSome = true ↔
      (∃ i : Nat, (∃ ts, ops[i]? = some (Op.register id ts)) ∧ (runAll s ops).2[i]? = some none ∧
        ∀ j : Nat, i < j →
          ¬ (ops[j]? = some (Op.delete id) ∧ (runAll s ops).2[j]? = some none)) ∨
      ((s.state.get id).isSome = true ∧
        ∀ j : Nat, ¬ (ops[j]? = some (Op.delete id) ∧ (runAll s ops).2[j]? = some none))) := by
  induction ops with
  | nil =>
    intro s _
    simp [runAll]
  | cons op ops ih =>
    intro s hf
    have hf1 : (step s op).1.faults = Faults.none := by rw [step_faults, hf]
    have h1 := step_exists s op id hf
    have h2 := ih (step s op).1 hf1
    have hshift : ∀ i : Nat,
        (∀ j : Nat, i + 1 < j → ¬ ((op :: ops)[j]? = some (Op.delete id) ∧
          ((step s op).2 :: (runAll (step s op).1 ops).2)[j]? = some none)) ↔
        (∀ j : Nat, i < j → ¬ (ops[j]? = some (Op.delete id) ∧
          (runAll (step s op).1 ops).2[j]? = some none)) := by
      intro i
      constructor
      · intro h j hj
        have := h (j + 1) (by omega)
        simpa using this
      · intro h j hj
        obtain ⟨j', rfl⟩ : ∃ j', j = j' + 1 := ⟨j - 1, by omega⟩
        have := h j' (by omega)
        simpa using this
    have hzero : (∀ j : Nat, 0 < j → ¬ ((op :: ops)[j]? = some (Op.delete id) ∧
          ((step s op).2 :: (runAll (step s op).1 ops).2)[j]? = some none)) ↔
        (∀ j : Nat, ¬ (ops[j]? = some (Op.delete id) ∧
          (runAll (step s op).1 ops).2[j]? = some none)) := by
      constructor
      · intro h j
        have := h (j + 1) (by omega)
        simpa using this
      · intro h j hj
        obtain ⟨j', rfl⟩ : ∃ j', j = j' + 1 := ⟨j - 1, by omega⟩
        have := h j'
        simpa using this
    have hA : (∃ i : Nat, (∃ ts, (op :: ops)[i]? = some (Op.register id ts)) ∧
          ((step s op).2 :: (runAll (step s op).1 ops).2)[i]? = some none ∧
          ∀ j : Nat, i < j → ¬ ((op :: ops)[j]? = some (Op.delete id) ∧
            ((step s op).2 :: (runAll (step s op).1 ops).2)[j]? = some none)) ↔
        ((∃ ts, op = Op.register id ts) ∧ (step s op).2 = none ∧
          (∀ j : Nat, ¬ (ops[j]? = some (Op.delete id) ∧
            (runAll (step s op).1 ops).2[j]? = some none))) ∨
        (∃ i : Nat, (∃ ts, ops[i]? = some (Op.register id ts)) ∧
          (runAll (step s op).1 ops).2[i]? = some none ∧
          ∀ j : Nat, i < j → ¬ (ops[j]? = some (Op.delete id) ∧
            (runAll (step s op).1 ops).2[j]? = some none)) := by
      rw [exists_nat_zero_or_succ]
      simp only [hshift, hzero, List.getElem?_cons_succ, List.getElem?_cons_zero,
        Option.some.injEq]
    have hC : (∀ j : Nat, ¬ ((op :: ops)[j]? = some (Op.delete id) ∧
          ((step s op).2 :: (runAll (step s op).1 ops).2)[j]? = some none)) ↔
        ¬ (op = Op.delete id ∧ (step s op).2 = none) ∧
        (∀ j : Nat, ¬ (ops[j]? = some (Op.delete id) ∧
          (runAll (step s op).1 ops).2[j]? = some none)) := by
      rw [forall_nat_zero_and_succ]
      simp only [List.getElem?_cons_succ, List.getElem?_cons_zero, Option.some.injEq]
    simp only [runAll]
    exact history_glue h2 h1 hA hC

/-! ## Claims about registering and reading back -/

/-- C1, as stated, fails: registering the timestamp consisting of the single
byte `0xFF` (not UTF-8) under id `a` succeeds, and the following `QueryDevice`
returns, with no error, a device whose `Time` is the three bytes of U+FFFD and
not the timestamp that was registered. -/
theorem register_query_not_exact :
    (RegisterDevice Stub.empty [0x61] [0xFF]).2 = none ∧
    (QueryDevice (RegisterDevice Stub.empty [0x61] [0xFF]).1 [0x61]).2 =
      (some ⟨[0x61], [0xEF, 0xBF, 0xBD]⟩, none) ∧
    (QueryDevice (RegisterDevice Stub.empty [0x61] [0xFF]).1 [0x61]).2 ≠
      (some ⟨[0x61], [0xFF]⟩, none) := by
  decide

/-- C1, amended. Round trip with overwrite for well-formed UTF-8: on every stub
(whatever is already stored under `id`), for every `id` and timestamp `ts` that
are well-formed UTF-8, if `RegisterDevice(id, ts)` succeeds and the read of `id`
succeeds, the following `QueryDevice(id)` returns, without error, the device
with `ID = id` and `Time = ts`; the bytes written under `id` decode to exactly
that device. -/
theorem register_then_query (s : Stub) (id ts : Bytes)
    (hid : validUTF8 id = true) (hts : validUTF8 ts = true)
    (hreg : (RegisterDevice s id ts).2 = none) (hread : s.faults.getState id = none) :
    (QueryDevice (RegisterDevice s id ts).1 id).2 = (some ⟨id, ts⟩, none) ∧
    (∃ bytes, (RegisterDevice s id ts).1.state.get id = some bytes ∧
      jsonUnmarshal bytes Device.zero = (⟨id, ts⟩, none)) := by
  have hstate := RegisterDevice_succeeds s id ts hreg
  have hget : (RegisterDevice s id ts).1.state.get id = some (jsonMarshal ⟨id, ts⟩) := by
    rw [hstate, get_put_self]
  have hrt := jsonUnmarshal_jsonMarshal ⟨id, ts⟩ hid hts
  refine ⟨?_, _, hget, hrt⟩
  rw [QueryDevice_present _ id _ (by rw [RegisterDevice_faults]; exact hread) hget, hrt]

theorem register_then_query_witness :
    (validUTF8 (ascii "dev-1") = true ∧ validUTF8 (ascii "2024-01-01T00:00:00Z") = true ∧
      (RegisterDevice (RegisterDevice Stub.empty (ascii "dev-1") (ascii "1999")).1
        (ascii "dev-1") (ascii "2024-01-01T00:00:00Z")).2 = none) ∧
    (QueryDevice (RegisterDevice (RegisterDevice Stub.empty (ascii "dev-1") (ascii "1999")).1
        (ascii "dev-1") (ascii "2024-01-01T00:00:00Z")).1 (ascii "dev-1")).2 =
      (some ⟨ascii "dev-1", ascii "2024-01-01T00:00:00Z"⟩, none) :=
  ⟨⟨by decide, by decide, rfl⟩,
    (register_then_query (RegisterDevice Stub.empty (ascii "dev-1") (ascii "1999")).1
      (ascii "dev-1") (ascii "2024-01-01T00:00:00Z") (by decide) (by decide) rfl rfl).1⟩

/-! ## Claims about errors of `QueryDevice` -/

/-- C6, as stated, fails: with the bytes `garbage` (not JSON) stored under `x`,
`json.Unmarshal` reports a syntax error, yet `QueryDevice` returns the
zero-valued device with a `nil` error; and with a number where the timestamp
should be, `json.Unmarshal` reports a type error, yet `QueryDevice` returns the
half-filled device with a `nil` error. -/
theorem corrupt_record_not_signalled :
    (jsonUnmarshal (ascii "garbage") Device.zero).2 = some JsonError.SyntaxError ∧
    (QueryDevice ⟨[(ascii "x", ascii "garbage")], Faults.none, []⟩ (ascii "x")).2 =
      (some Device.zero, none) ∧
    (jsonUnmarshal (ascii "\x7b\"deviceid\":\"x\",\"timestamp\":5\x7d") Device.zero).2 =
      some JsonError.UnmarshalTypeError ∧
    (QueryDevice ⟨[(ascii "x", ascii "\x7b\"deviceid\":\"x\",\"timestamp\":5\x7d")],
        Faults.none, []⟩ (ascii "x")).2 =
      (some ⟨ascii "x", []⟩, none) := by
  decide

/-- C6, amended. `QueryDevice` does not signal corrupt records: for every `id`
whose read succeeds and whose stored bytes are present, it returns a `nil`
error together with the device `json.Unmarshal` left, whether or not the bytes
decode; when the bytes are not well-formed JSON that device is the zero-valued
one. -/
theorem query_discards_decode_error (s : Stub) (id bytes : Bytes)
    (hread : s.faults.getState id = none) (hpres : s.state.get id = some bytes) :
    (QueryDevice s id).2 = (some (jsonUnmarshal bytes Device.zero).1, none) ∧
    (parseJSON bytes = none → (QueryDevice s id).2 = (some Device.zero, none)) := by
  refine ⟨QueryDevice_present s id bytes hread hpres, fun hbad => ?_⟩
  rw [QueryDevice_present s id bytes hread hpres]
  simp [jsonUnmarshal, hbad]

theorem query_discards_decode_error_witness :
    ((⟨[(ascii "x", ascii "garbage")], Faults.none, []⟩ : Stub).faults.getState (ascii "x") =
        none ∧
      (⟨[(ascii "x", ascii "garbage")], Faults.none, []⟩ : Stub).state.get (ascii "x") =
        some (ascii "garbage") ∧
      parseJSON (ascii "garbage") = none) ∧
    (QueryDevice ⟨[(ascii "x", ascii "garbage")], Faults.none, []⟩ (ascii "x")).2 =
      (some Device.zero, none) :=
  ⟨⟨rfl, by decide, rfl⟩,
    (query_discards_decode_error ⟨[(ascii "x", ascii "garbage")], Faults.none, []⟩ (ascii "x")
      (ascii "garbage") rfl (by decide)).2 rfl⟩

/-- C7, as stated, fails: the not-found error for the absent id
`failed to read from world state. x` and the store-failure error for a read
that fails with the cause `x does not exist` are the same error. -/
theorem not_found_and_store_failure_collide :
    (QueryDevice Stub.empty (ascii "failed to read from world state. x")).2 =
      (QueryDevice ⟨[], { Faults.none with
          getState := fun _ => some (ascii "x does not exist") }, []⟩ (ascii "y")).2 := by
  decide

/-- The hypothesis of the amended C7 cannot be dropped for any id: when the
not-found text for `id1` does begin with the 33 bytes
`failed to read from world state. `, the read failure whose cause is the rest
of that text gives the very same error. -/
theorem not_found_text_collides (s1 s2 : Stub) (id1 id2 : Bytes)
    (hread : s1.faults.getState id1 = none) (habs : s1.state.get id1 = none)
    (hfail : s2.faults.getState id2 = some ((id1 ++ ascii " does not exist").drop 33))
    (hid : (id1 ++ ascii " does not exist").take 33 =
      ascii "failed to read from world state. ") :
    (QueryDevice s1 id1).2.2 = (QueryDevice s2 id2).2.2 := by
  rw [QueryDevice_absent s1 id1 hread habs]
  have h2 : (QueryDevice s2 id2).2 =
      (none, some (ascii "failed to read from world state. " ++
        (id1 ++ ascii " does not exist").drop 33)) := by
    simp [QueryDevice, Stub.GetState, hfail]
  rw [h2, ← hid, List.take_append_drop]

/-- C7, amended. Not-found and store failure are distinguishable in
`QueryDevice` whenever the not-found text itself does not begin with the text
of the store-failure message: for every absent `id1` such that the text
`<id1> does not exist` does not begin with the 33 bytes
`failed to read from world state. `, every `id2` and every cause of a failed
read, the error `QueryDevice(id1)` returns is different from the error
`QueryDevice(id2)` returns. -/
theorem not_found_differs_from_store_failure (s1 s2 : Stub) (id1 id2 : Bytes) (cause : Error)
    (hread : s1.faults.getState id1 = none) (habs : s1.state.get id1 = none)
    (hfail : s2.faults.getState id2 = some cause)
    (hid : (id1 ++ ascii " does not exist").take 33 ≠
      ascii "failed to read from world state. ") :
    (QueryDevice s1 id1).2.2 ≠ (QueryDevice s2 id2).2.2 := by
  rw [QueryDevice_absent s1 id1 hread habs]
  have h2 : (QueryDevice s2 id2).2 =
      (none, some (ascii "failed to read from world state. " ++ cause)) := by
    simp [QueryDevice, Stub.GetState, hfail]
  rw [h2]
  intro heq
  have hmsg : id1 ++ ascii " does not exist" =
      ascii "failed to read from world state. " ++ cause := by
    simpa using heq
  have hlenP : (ascii "failed to read from world state. ").length = 33 := by decide
  apply hid
  rw [hmsg, List.take_append_of_le_length (by rw [hlenP]), ← hlenP, List.take_length]

theorem not_found_differs_from_store_failure_witness :
    (Stub.empty.faults.getState (ascii "failed to read from world state.X") = none ∧
      Stub.empty.state.get (ascii "failed to read from world state.X") = none ∧
      (ascii "failed to read from world state.X" ++ ascii " does not exist").take 33 ≠
        ascii "failed to read from world state. ") ∧
    (QueryDevice Stub.empty (ascii "failed to read from world state.X")).2.2 ≠
      (QueryDevice ⟨[], { Faults.none with
          getState := fun _ => some (ascii "x does not exist") }, []⟩ (ascii "y")).2.2 :=
  ⟨⟨rfl, rfl, by decide⟩,
    not_found_differs_from_store_failure Stub.empty _
      (ascii "failed to read from world state.X") (ascii "y")
      (ascii "x does not exist") rfl rfl rfl (by decide)⟩

/-! ## The existence invariant -/

/-- C8. Existence invariant over histories: for every finite sequence of
invocations run from the empty ledger on a host that never fails, and every
`id`, `DeviceExists(id)` on the final stub returns true (and no error) if and
only if some invocation of the sequence is a `RegisterDevice` for `id` that
returned no error and no later invocation is a `DeleteAsset` for `id` that
returned no error; and on any stub the three reads leave the world state as
it was. -/
theorem existence_invariant (ops : List Op) (id : Bytes) :
    ((DeviceExists (runAll Stub.empty ops).1 id).2 = (true, none) ↔
      ∃ i : Nat, (∃ ts, ops[i]? = some (Op.register id ts)) ∧
        (runAll Stub.empty ops).2[i]? = some none ∧
        ∀ j : Nat, i < j →
          ¬ (ops[j]? = some (Op.delete id) ∧ (runAll Stub.empty ops).2[j]? = some none)) ∧
    (DeviceExists (runAll Stub.empty ops).1 id).2.2 = none ∧
    (∀ (s : Stub) (key : Bytes), (QueryDevice s key).1.state = s.state ∧
      (DeviceExists s key).1.state = s.state ∧ (QueryAllDevices s).1.state = s.state) := by
  have hf : (runAll Stub.empty ops).1.faults = Faults.none := runAll_faults ops Stub.empty
  have hex := DeviceExists_ok (runAll Stub.empty ops).1 id (by rw [hf]; rfl)
  have hinv := runAll_exists ops id Stub.empty rfl
  refine ⟨?_, by rw [hex], fun s key =>
    ⟨QueryDevice_state s key, DeviceExists_state s key, QueryAllDevices_state s⟩⟩
  rw [hex]
  have hnone : ¬ ((Stub.empty.state.get id).isSome = true) := by simp [Stub.empty, WorldState.get]
  constructor
  · intro h
    have h' : ((runAll Stub.empty ops).1.state.get id).isSome = true := congrArg Prod.fst h
    rcases hinv.mp h' with hA | hB
    · exact hA
    · exact absurd hB.1 hnone
  · intro h
    have h' := hinv.mpr (Or.inl h)
    rw [h']

/-! ## `QueryAllDevices` after registrations -/

theorem put_perm (key value : Bytes) (w : WorldState) (hnew : key ∉ w.map Prod.fst) :
    (w.put key value).Perm ((key, value) :: w) := by
  induction w with
  | nil => exact List.Perm.refl _
  | cons e rest ih =>
    obtain ⟨k, v⟩ := e
    simp only [List.map_cons, List.mem_cons, not_or] at hnew
    have hk : ¬ k = key := fun h => hnew.1 h.symm
    by_cases hl : keyLess key k = true
    · simp only [WorldState.put, hk, hl, if_false, if_true]
      exact List.Perm.refl _
    · simp only [WorldState.put, hk, hl, if_false]
      exact ((ih hnew.2).cons (k, v)).trans (List.Perm.swap _ _ _)

/-- The registrations of a list of (id, timestamp) pairs, as invocations. -/
theorem runAll_registrations (regs : List (Bytes × Bytes)) : ∀ s : Stub,
    (regs.map Prod.fst).Nodup → (∀ r ∈ regs, r.1 ∉ s.state.map Prod.fst) →
    (∀ e ∈ (runAll s (regs.map (fun r => Op.register r.1 r.2))).2, e = none) →
    (runAll s (regs.map (fun r => Op.register r.1 r.2))).1.state.Perm
      (regs.map (fun r => (r.1, jsonMarshal ⟨r.1, r.2⟩)) ++ s.state) := by
  induction regs with
  | nil =>
    intro s _ _ _
    exact List.Perm.refl _
  | cons r regs ih =>
    intro s hnd hfresh hreg
    simp only [List.map_cons, List.nodup_cons] at hnd
    simp only [List.map_cons, runAll, step, List.mem_cons, forall_eq_or_imp] at hreg
    have hstate := RegisterDevice_succeeds s r.1 r.2 hreg.1
    have hperm1 : (RegisterDevice s r.1 r.2).1.state.Perm
        ((r.1, jsonMarshal ⟨r.1, r.2⟩) :: s.state) := by
      rw [hstate]
      exact put_perm _ _ _ (hfresh r (List.mem_cons_self _ _))
    have hfresh1 : ∀ r' ∈ regs, r'.1 ∉ (RegisterDevice s r.1 r.2).1.state.map Prod.fst := by
      intro r' hr' hmem
      have hmem' := (hperm1.map Prod.fst).subset hmem
      simp only [List.map_cons, List.mem_cons] at hmem'
      rcases hmem' with h | h
      · exact hnd.1 (h ▸ List.mem_map_of_mem Prod.fst hr')
      · exact hfresh r' (List.mem_cons_of_mem _ hr') h
    have hrec := ih (RegisterDevice s r.1 r.2).1 hnd.2 hfresh1 hreg.2
    simp only [List.map_cons, runAll, step, List.cons_append]
    exact hrec.trans ((List.Perm.append_left _ hperm1).trans List.perm_middle)

/-- C5, as stated, fails: after the single successful registration of id `a`
with the timestamp `0xFF` (not UTF-8) on the empty ledger, `QueryAllDevices`
returns one result whose record has the three bytes of U+FFFD as `Time`, so
the record is not the device that was registered. -/
theorem queryAll_record_not_exact :
    (RegisterDevice Stub.empty [0x61] [0xFF]).2 = none ∧
    (QueryAllDevices (RegisterDevice Stub.empty [0x61] [0xFF]).1).2 =
      (some [⟨[0x61], some ⟨[0x61], [0xEF, 0xBF, 0xBD]⟩⟩], none) ∧
    (QueryAllDevices (RegisterDevice Stub.empty [0x61] [0xFF]).1).2 ≠
      (some [⟨[0x61], some ⟨[0x61], [0xFF]⟩⟩], none) := by
  decide

/-- C5, amended. `QueryAllDevices` is complete and exact for well-formed UTF-8:
starting from an empty world state, after `RegisterDevice` has succeeded for
`N >= 0` devices with pairwise distinct ids, all ids and timestamps being
well-formed UTF-8, and with the range scan and every `Next` succeeding,
`QueryAllDevices` returns no error and exactly `N` results whose (Key, Record)
pairs are, up to order, the pairs (id, Device with that id and timestamp) that
were registered, with no key twice; with no registration the list is empty. -/
theorem queryAll_after_registrations (s : Stub) (regs : List (Bytes × Bytes))
    (hempty : s.state = [])
    (hdistinct : (regs.map Prod.fst).Nodup)
    (hvalid : ∀ r ∈ regs, validUTF8 r.1 = true ∧ validUTF8 r.2 = true)
    (hreg : ∀ e ∈ (runAll s (regs.map (fun r => Op.register r.1 r.2))).2, e = none)
    (hrange : s.faults.getStateByRange = none) (hnext : ∀ i, s.faults.next i = none) :
    ∃ results,
      (QueryAllDevices (runAll s (regs.map (fun r => Op.register r.1 r.2))).1).2 =
        (some results, none) ∧
      results.length = regs.length ∧
      (results.map (fun q => (q.Key, q.Record))).Perm
        (regs.map (fun r => (r.1, some ⟨r.1, r.2⟩))) ∧
      (results.map (fun q => q.Key)).Nodup ∧
      (regs = [] → results = []) := by
  have hf : (runAll s (regs.map (fun r => Op.register r.1 r.2))).1.faults = s.faults :=
    runAll_faults _ s
  have hperm := runAll_registrations regs s hdistinct (by simp [hempty]) hreg
  rw [hempty, List.append_nil] at hperm
  have hq := queryAll_ok (runAll s (regs.map (fun r => Op.register r.1 r.2))).1
    (by rw [hf]; exact hrange) (by rw [hf]; exact hnext)
  have hpairs : ((runAll s (regs.map (fun r => Op.register r.1 r.2))).1.state.map
      (fun e => ({ Key := e.1, Record := some (jsonUnmarshal e.2 Device.zero).1 } :
        QueryResult))).map (fun q => (q.Key, q.Record)) =
      (runAll s (regs.map (fun r => Op.register r.1 r.2))).1.state.map
        (fun e => (e.1, some (jsonUnmarshal e.2 Device.zero).1)) := by
    simp [Function.comp_def]
  have hrt : (regs.map (fun r => (r.1, jsonMarshal ⟨r.1, r.2⟩))).map
      (fun e => (e.1, some (jsonUnmarshal e.2 Device.zero).1)) =
      regs.map (fun r => (r.1, some (⟨r.1, r.2⟩ : Device))) := by
    rw [List.map_map]
    apply List.map_congr_left
    intro r hr
    simp only [Function.comp_apply]
    rw [jsonUnmarshal_jsonMarshal ⟨r.1, r.2⟩ (hvalid r hr).1 (hvalid r hr).2]
  have hres : List.Perm (((runAll s (regs.map (fun r => Op.register r.1 r.2))).1.state.map
      (fun e => ({ Key := e.1, Record := some (jsonUnmarshal e.2 Device.zero).1 } :
        QueryResult))).map (fun q => (q.Key, q.Record)))
      (regs.map (fun r => (r.1, some (⟨r.1, r.2⟩ : Device)))) := by
    rw [hpairs, ← hrt]
    exact hperm.map _
  refine ⟨_, hq, ?_, hres, ?_, ?_⟩
  · have := hperm.length_eq
    simpa using this
  · have hkeys := hres.map Prod.fst
    simp only [List.map_map, Function.comp_def] at hkeys
    have hnd := hkeys.nodup_iff.mpr hdistinct
    simpa [List.map_map, Function.comp_def] using hnd
  · intro hnil
    subst hnil
    have := hperm.length_eq
    simp only [List.map_nil, List.length_nil] at this
    simp [List.length_eq_zero.mp this]

theorem queryAll_after_registrations_witness :
    ((Stub.empty.state = [] ∧
      ([(ascii "dev-2", ascii "t2"), (ascii "dev-1", ascii "t1")].map Prod.fst).Nodup ∧
      (∀ e ∈ (runAll Stub.empty ([(ascii "dev-2", ascii "t2"), (ascii "dev-1", ascii "t1")].map
        (fun r => Op.register r.1 r.2))).2, e = none)) ∧
    ∃ results,
      (QueryAllDevices (runAll Stub.empty
        ([(ascii "dev-2", ascii "t2"), (ascii "dev-1", ascii "t1")].map
          (fun r => Op.register r.1 r.2))).1).2 = (some results, none) ∧
      results.length = 2 ∧
      (results.map (fun q => (q.Key, q.Record))).Perm
        [(ascii "dev-2", some ⟨ascii "dev-2", ascii "t2"⟩),
          (ascii "dev-1", some ⟨ascii "dev-1", ascii "t1"⟩)]) :=
  ⟨⟨rfl, by decide, by decide⟩, by
    obtain ⟨results, h1, h2, h3, -, -⟩ := queryAll_after_registrations Stub.empty
      [(ascii "dev-2", ascii "t2"), (ascii "dev-1", ascii "t1")] rfl (by decide) (by decide)
      (by decide) rfl (fun _ => rfl)
    exact ⟨results, h1, h2, h3⟩⟩

end IotRegister
